import Mathlib

/-!
Shallow embedding of the jsonpp library (src/json.h, src/json.cpp): the value
model, the serializer and the recursive-descent parser, together with proofs
about the spec's claims.

Modelling conventions:
* `std::string` text is modelled as `List Char` in the parser core and as
  `String` at the public API, matching `String.data`.
* The C++ `double` payload of `JsonNumber` is modelled exactly as a decimal
  number `m / 10 ^ e` (`Decimal` below); the decimal-text conversions
  (`std::stod` on input and the default `std::ostream` formatting on
  output) are modelled as exact decimal arithmetic.  Claims that depend on
  the output formatting of a number carry an explicit hypothesis that the
  number's formatted text converts back to the same value.
* Every `throw` site of the C++ code becomes one constructor of `JsonError`;
  C++ exceptions become `Except JsonError` results.
* The parser's monotonically advancing cursor (`index_` into the immutable
  `json_`) is modelled by passing the remaining suffix of the input;
  `json_[index_]` evaluated at `index_ = json_.size()` yields the null
  character, modelled by `chHead` below.
* The mutually recursive parsing functions are written with an explicit
  fuel argument.  `parse` supplies `2 * length + 2` fuel, which is more
  than the recursion can ever use: every recursive step either consumes at
  least one input character or is one of the at most two bracket-dispatch
  steps per consumed opening character.
-/

namespace Json

/-- Characters accepted by `std::isspace` in the C locale, used by
`Parser::skipWhitespace`. -/
def isCSpace (c : Char) : Bool :=
  ([' ', '\t', '\n', '\x0b', '\x0c', '\r'] : List Char).contains c

/-- Characters accepted by `std::isdigit`. -/
def isDigitC (c : Char) : Bool :=
  (['0', '1', '2', '3', '4', '5', '6', '7', '8', '9'] : List Char).contains c

/-- The characters `Parser::parseNumber` consumes maximally: digits, the
decimal point and the two sign characters. -/
def isNumChar (c : Char) : Bool :=
  isDigitC c || c == '.' || c == '-' || c == '+'

/-- The distinct failure causes of the C++ code.  Each constructor models one
throw site (its `std::runtime_error` / `std::out_of_range` /
`std::invalid_argument` message is noted alongside). -/
inductive JsonError where
  /-- JsonValue::asString default: Not a string -/
  | notAString
  /-- JsonValue::asNumber default: Not a number -/
  | notANumber
  /-- JsonValue::asBoolean default: Not a boolean -/
  | notABoolean
  /-- JsonValue::asArray default: Not an array -/
  | notAnArray
  /-- JsonValue::asObject default: Not an object -/
  | notAnObject
  /-- JsonArray::get: Index out of range -/
  | indexOutOfRange
  /-- Parser::parse: Unexpected characters after JSON value -/
  | trailingCharacters
  /-- Parser::parseValue: Unexpected end of input -/
  | unexpectedEndOfInput
  /-- Parser::parseValue: Unexpected character in JSON input -/
  | unexpectedCharacter
  /-- Parser::parseObject: Expected colon after key -/
  | expectedColon
  /-- Parser::parseObject: Expected comma or closing brace in object -/
  | expectedCommaOrBrace
  /-- Parser::parseObject: Expected closing brace at end of object -/
  | expectedCloseBrace
  /-- Parser::parseArray: Expected comma or closing bracket in array -/
  | expectedCommaOrBracket
  /-- Parser::parseArray: Expected closing bracket at end of array -/
  | expectedCloseBracket
  /-- Parser::parseString: Expected quote at start of string -/
  | expectedQuote
  /-- Parser::parseString: Unexpected end of string -/
  | unexpectedEndOfString
  /-- Parser::parseBoolean: Expected true or false -/
  | badBoolLiteral
  /-- Parser::parseNull: Expected null -/
  | badNullLiteral
  /-- std::stod: std::invalid_argument when no conversion can be performed -/
  | numericConversionFailure
  /-- artifact of the fuelled model; never produced at the fuel `parse`
  supplies -/
  | fuelExhausted
  deriving DecidableEq

/-- The error taxonomy of §7 of the spec. -/
inductive ErrorKind where
  | typeMismatch
  | indexOutOfRange
  | unexpectedEndOfInput
  | expectedToken
  | unrecognizedLiteral
  | numericConversionFailure
  | trailingCharacters
  deriving DecidableEq

/-- Classification of each concrete failure cause into the spec's taxonomy. -/
def classify : JsonError → ErrorKind
  | .notAString | .notANumber | .notABoolean | .notAnArray | .notAnObject =>
      .typeMismatch
  | .indexOutOfRange => .indexOutOfRange
  | .trailingCharacters => .trailingCharacters
  | .unexpectedEndOfInput | .unexpectedEndOfString => .unexpectedEndOfInput
  | .unexpectedCharacter | .expectedColon | .expectedCommaOrBrace
  | .expectedCloseBrace | .expectedCommaOrBracket | .expectedCloseBracket
  | .expectedQuote => .expectedToken
  | .badBoolLiteral | .badNullLiteral => .unrecognizedLiteral
  | .numericConversionFailure => .numericConversionFailure
  | .fuelExhausted => .expectedToken

/-- Exact decimal model of the `double` payload: the value `m / 10 ^ e`.
All values produced by the conversions below carry no trailing zero factor
(`e = 0` or `10 ∤ m`), so structural equality of produced values coincides
with value equality, as `==` on doubles does. -/
structure Decimal where
  m : Int
  e : ℕ
  deriving DecidableEq

/-- Strip trailing zero factors, establishing the canonical form. -/
def normDec : Int → ℕ → Decimal
  | m, 0 => ⟨m, 0⟩
  | m, e + 1 => if m % 10 = 0 then normDec (m / 10) e else ⟨m, e + 1⟩

/-- The value model: the closed union formed by the `JsonValue` subclasses.
An object is its ordered list of entries: under the key-uniqueness invariant
(proved below for every object built through `JsonObject::add`), the pair of
`keys_` (insertion order) and `values_` (the key-to-value map) of the C++
`JsonObject` is exactly this list, ordered by `keys_` with each key mapped
through `values_`. -/
inductive JsonValue where
  | null
  | boolean (b : Bool)
  | number (q : Decimal)
  | str (s : String)
  | arr (values_ : List JsonValue)
  | obj (entries : List (String × JsonValue))

/-- JsonValue::asString: the `JsonString` override returns the value, every
other subclass falls to the base-class throw. -/
def JsonValue.asString : JsonValue → Except JsonError String
  | .str s => .ok s
  | _ => .error .notAString

/-- JsonValue::asNumber. -/
def JsonValue.asNumber : JsonValue → Except JsonError Decimal
  | .number q => .ok q
  | _ => .error .notANumber

/-- JsonValue::asBoolean. -/
def JsonValue.asBoolean : JsonValue → Except JsonError Bool
  | .boolean b => .ok b
  | _ => .error .notABoolean

/-- Lookup in the model of `std::unordered_map<std::string, ...>`: the map is
an association list queried by key (physical order of the list is never
observable through `find`). -/
def assocGet : List (String × JsonValue) → String → Option JsonValue
  | [], _ => none
  | (k, v) :: rest, key => if k = key then some v else assocGet rest key

/-- `values_[key] = value` on the association-list model of the map, which is
also `JsonObject::add` seen on the combined entry list: an existing key is
overwritten in place, a fresh key is appended at the end. -/
def assocSet : List (String × JsonValue) → String → JsonValue →
    List (String × JsonValue)
  | [], key, v => [(key, v)]
  | (k, w) :: rest, key, v =>
      if k = key then (key, v) :: rest else (k, w) :: assocSet rest key v

/-- The C++ `JsonArray`: a vector of owned values. -/
structure JsonArray where
  values_ : List JsonValue

/-- JsonArray::add appends. -/
def JsonArray.add (a : JsonArray) (value : JsonValue) : JsonArray :=
  ⟨a.values_ ++ [value]⟩

/-- JsonArray::get: in-range indices return the stored element, out-of-range
indices throw `std::out_of_range`. -/
def JsonArray.get (a : JsonArray) (index : ℕ) : Except JsonError JsonValue :=
  if index < a.values_.length then .ok (a.values_.getD index .null)
  else .error .indexOutOfRange

/-- The C++ `JsonObject` state: the key-to-value map and the insertion-order
key list. -/
structure JsonObject where
  values_ : List (String × JsonValue)
  keys_ : List String

/-- JsonObject::add: push the key onto `keys_` only when `values_` does not
know it yet, then store the value in the map. -/
def JsonObject.add (o : JsonObject) (key : String) (value : JsonValue) :
    JsonObject :=
  { values_ := assocSet o.values_ key value
    keys_ := match assocGet o.values_ key with
             | none => o.keys_ ++ [key]
             | some _ => o.keys_ }

/-- JsonObject::get: present-or-absent lookup, absence is `none` (the C++
code returns `nullptr`). -/
def JsonObject.get (o : JsonObject) (key : String) : Option JsonValue :=
  assocGet o.values_ key

/-- Decimal value of a digit run (most significant first). -/
def digitsVal (l : List Char) : ℕ :=
  l.foldl (fun a c => 10 * a + (c.toNat - ('0').toNat)) 0

/-- Digit characters of a natural number, most significant first. -/
def natDigitChars (n : ℕ) : List Char := Nat.toDigits 10 n

/-- Remove trailing `0` characters. -/
def stripTrailingZeros (l : List Char) : List Char :=
  (l.reverse.dropWhile (fun c => c == '0')).reverse

/-- Round a positive natural to six significant digits: the resulting
six-digit mantissa (between `10^5` and `10^6 - 1`) and the decimal exponent
of the rounded value relative to a one-digit integer part. -/
def sixDigits (a : ℕ) : ℕ × ℤ :=
  let L := (natDigitChars a).length
  if L ≤ 6 then (a * 10 ^ (6 - L), (L : ℤ) - 1)
  else
    let cut := L - 6
    let q := a / 10 ^ cut
    let q6 := if 10 ^ cut ≤ 2 * (a % 10 ^ cut) then q + 1 else q
    if q6 = 10 ^ 6 then ((10 : ℕ) ^ 5, (L : ℤ)) else (q6, (L : ℤ) - 1)

/-- Format the positive value `a / 10 ^ e` the way the default-configured
`std::ostream` insertion of `JsonNumber::serialize` formats a positive
`double`: `%g` with precision 6 — round to six significant digits, use
fixed notation when the decimal exponent `X` satisfies `-4 ≤ X < 6` and
scientific notation (two-digit exponent) otherwise, and strip trailing
fractional zeros.  The model computes on the exact decimal; rounding at
the seventh significant digit is half-up where the C++ library rounds the
underlying binary double.  Theorems never rely on this function's output
beyond hypotheses stating that a given number's text converts back to the
same value. -/
def fmtPos (a : ℕ) (e : ℕ) : List Char :=
  let p := sixDigits a
  let ds : List Char := natDigitChars p.1
  let X : ℤ := p.2 - (e : ℤ)
  if -4 ≤ X ∧ X < 6 then
    if 0 ≤ X then
      let ip := ds.take (X.toNat + 1)
      let fp := stripTrailingZeros (ds.drop (X.toNat + 1))
      ip ++ (if fp = [] then [] else '.' :: fp)
    else
      '0' :: '.' ::
        (List.replicate (-X - 1).toNat '0' ++ stripTrailingZeros ds)
  else
    let fp := stripTrailingZeros (ds.drop 1)
    let mant := ds.take 1 ++ (if fp = [] then [] else '.' :: fp)
    let eabs := (if X < 0 then -X else X).toNat
    let edigits := natDigitChars eabs
    mant ++ 'e' :: (if X < 0 then '-' else '+') ::
      (if eabs < 10 then '0' :: edigits else edigits)

/-- JsonNumber::serialize: default `std::ostream` formatting of the stored
value. -/
def fmtNum (d : Decimal) : List Char :=
  if d.m = 0 then [('0' : Char)]
  else if d.m < 0 then '-' :: fmtPos (-d.m).toNat d.e
  else fmtPos d.m.toNat d.e

/-- Spaces for one indentation stop: `std::string(n, ' ')`. -/
def spaces (n : ℕ) : List Char := List.replicate n ' '

mutual

/-- JsonValue::serialize, dispatched over the subclasses, as the emitted
character stream.  `JsonNull`, `JsonBoolean` and `JsonNumber` emit their
literal; `JsonString::serialize` wraps the stored text in quotes without
escaping anything. -/
def serializeV : JsonValue → ℕ → ℕ → List Char
  | .null, _, _ => ("null").data
  | .boolean b, _, _ => if b then ("true").data else ("false").data
  | .number q, _, _ => fmtNum q
  | .str s, _, _ => '"' :: s.data ++ ['"']
  | .arr vs, indent_level, indent_size =>
      '[' :: serializeItems vs true indent_level indent_size
        ++ (if 0 < indent_size then
              '\n' :: spaces (indent_level * indent_size) else [])
        ++ [']']
  | .obj es, indent_level, indent_size =>
      '{' :: serializeEntries es true indent_level indent_size
        ++ (if 0 < indent_size then
              '\n' :: spaces (indent_level * indent_size) else [])
        ++ ['}']

/-- The element loop of JsonArray::serialize: a comma before every element
but the first, then (pretty only) a newline and the next level's
indentation, then the element at `indent_level + 1`. -/
def serializeItems : List JsonValue → Bool → ℕ → ℕ → List Char
  | [], _, _, _ => []
  | v :: rest, first, indent_level, indent_size =>
      (if first then [] else [','])
        ++ (if 0 < indent_size then
              '\n' :: spaces ((indent_level + 1) * indent_size) else [])
        ++ serializeV v (indent_level + 1) indent_size
        ++ serializeItems rest false indent_level indent_size

/-- The key loop of JsonObject::serialize: like the array loop, with the
quoted key, a colon and (pretty only) one space before each value. -/
def serializeEntries : List (String × JsonValue) → Bool → ℕ → ℕ → List Char
  | [], _, _, _ => []
  | (key, v) :: rest, first, indent_level, indent_size =>
      (if first then [] else [','])
        ++ (if 0 < indent_size then
              '\n' :: spaces ((indent_level + 1) * indent_size) else [])
        ++ '"' :: key.data ++ '"' :: ':'
        :: (if 0 < indent_size then [' '] else [])
        ++ serializeV v (indent_level + 1) indent_size
        ++ serializeEntries rest false indent_level indent_size

end

/-- Public serialization: `value.serialize(indent_level, indent_size)`. -/
def JsonValue.serialize (v : JsonValue) (indent_level indent_size : ℕ) :
    String :=
  ⟨serializeV v indent_level indent_size⟩

/-- Parser::skipWhitespace on the remaining input. -/
def skipWhitespace : List Char → List Char
  | [] => []
  | c :: rest => if isCSpace c then skipWhitespace rest else c :: rest

/-- `json_[index_]`: the head of the remaining input, or the null character
at the end of input (`std::string` indexing at `size()`). -/
def chHead : List Char → Char
  | [] => '\x00'
  | c :: _ => c

/-- The escape table of Parser::parseString: the five named control
characters; every other escaped character (including quote and backslash)
falls through the final `else` and is emitted as itself. -/
def escDecode (c : Char) : Char :=
  if c = 'n' then '\n'
  else if c = 't' then '\t'
  else if c = 'r' then '\r'
  else if c = 'b' then '\x08'
  else if c = 'f' then '\x0c'
  else c

/-- The scan loop of Parser::parseString after the opening quote: a closing
quote returns the accumulated text; a backslash consumes the next character
through the escape table (a backslash as the last input character steps past
the end and then falls out of the loop); running out of input throws. -/
def parseStringLoop : List Char → List Char →
    Except JsonError (List Char × List Char)
  | [], _ => .error .unexpectedEndOfString
  | c :: rest, acc =>
      if c = '"' then .ok (acc, rest)
      else if c = '\\' then
        match rest with
        | [] => .error .unexpectedEndOfString
        | e :: rest2 => parseStringLoop rest2 (acc ++ [escDecode e])
      else parseStringLoop rest (acc ++ [c])

/-- Parser::parseString: insist on an opening quote, then scan. -/
def parseStringF (s : List Char) : Except JsonError (String × List Char) :=
  if chHead s = '"' then
    match parseStringLoop (s.drop 1) [] with
    | .ok (cs, rest) => .ok (⟨cs⟩, rest)
    | .error e => .error e
  else .error .expectedQuote

/-- Model of `std::stod` on the character set `parseNumber` hands it (digits,
point, signs): after at most one sign, the longest initial run of
`digits [ point digits ]` with at least one digit is converted exactly;
when no such run exists the conversion throws `std::invalid_argument`,
modelled as `none`.  (Out-of-range magnitudes cannot occur: the model's
decimals are exact.) -/
def stodCore (sgn : Int) (t : List Char) : Option Decimal :=
  let ds := t.takeWhile isDigitC
  let r2 := t.drop ds.length
  if chHead r2 = '.' then
    let fs := (r2.drop 1).takeWhile isDigitC
    if ds.length = 0 ∧ fs.length = 0 then none
    else some (normDec
      (sgn * ((digitsVal ds * 10 ^ fs.length + digitsVal fs : ℕ) : Int))
      fs.length)
  else if ds.length = 0 then none
  else some (normDec (sgn * ((digitsVal ds : ℕ) : Int)) 0)

/-- Dispatch of the optional leading sign of `std::stod`. -/
def stod (l : List Char) : Option Decimal :=
  if chHead l = '-' then stodCore (-1) (l.drop 1)
  else if chHead l = '+' then stodCore 1 (l.drop 1)
  else stodCore 1 l

/-- Parser::parseNumber: consume the maximal run of number characters and
hand exactly that substring to `std::stod`. -/
def parseNumberF (s : List Char) : Except JsonError (Decimal × List Char) :=
  let run := s.takeWhile isNumChar
  match stod run with
  | some q => .ok (q, s.drop run.length)
  | none => .error .numericConversionFailure

/-- Parser::parseBoolean: an exact four-character or five-character literal
match at the cursor (`substr` clamps at the end of input, as `take` does). -/
def parseBooleanF (s : List Char) : Except JsonError (Bool × List Char) :=
  if s.take 4 = ("true").data then .ok (true, s.drop 4)
  else if s.take 5 = ("false").data then .ok (false, s.drop 5)
  else .error .badBoolLiteral

/-- Parser::parseNull. -/
def parseNullF (s : List Char) : Except JsonError (List Char) :=
  if s.take 4 = ("null").data then .ok (s.drop 4)
  else .error .badNullLiteral

mutual

/-- Parser::parseValue: skip whitespace, fail on end of input, then dispatch
on the current character exactly as the C++ `if` chain does. -/
def parseValueF : ℕ → List Char → Except JsonError (JsonValue × List Char)
  | 0, _ => .error .fuelExhausted
  | fuel + 1, s =>
    let t := skipWhitespace s
    match t with
    | [] => .error .unexpectedEndOfInput
    | c :: _ =>
      if c = '{' then
        match parseObjectLoop fuel [] (skipWhitespace (t.drop 1)) with
        | .ok (es, rest) => .ok (.obj es, rest)
        | .error e => .error e
      else if c = '[' then
        match parseArrayLoop fuel [] (skipWhitespace (t.drop 1)) with
        | .ok (vs, rest) => .ok (.arr vs, rest)
        | .error e => .error e
      else if c = '"' then
        match parseStringF t with
        | .ok (s1, rest) => .ok (.str s1, rest)
        | .error e => .error e
      else if isDigitC c = true ∨ c = '-' ∨ c = '+' then
        match parseNumberF t with
        | .ok (q, rest) => .ok (.number q, rest)
        | .error e => .error e
      else if c = 't' ∨ c = 'f' then
        match parseBooleanF t with
        | .ok (b, rest) => .ok (.boolean b, rest)
        | .error e => .error e
      else if c = 'n' then
        match parseNullF t with
        | .ok rest => .ok (.null, rest)
        | .error e => .error e
      else .error .unexpectedCharacter

/-- The `while` loop of Parser::parseObject, fused with the final
closing-brace check: the loop runs while input remains and the cursor is not
at a closing brace; each pass parses a quoted key, a colon, a value, adds the
entry, and then either consumes a separating comma, or sees the closing
brace (the next pass accepts it — which is also why a trailing comma
directly before the brace is accepted), or throws.  An exhausted input ends
the loop and the final check throws. -/
def parseObjectLoop : ℕ → List (String × JsonValue) → List Char →
    Except JsonError (List (String × JsonValue) × List Char)
  | 0, _, _ => .error .fuelExhausted
  | fuel + 1, es, s =>
    match s with
    | [] => .error .expectedCloseBrace
    | c :: rest =>
      if c = '}' then .ok (es, rest)
      else
        match parseStringF s with
        | .error e => .error e
        | .ok (key, r1) =>
          let r2 := skipWhitespace r1
          if chHead r2 = ':' then
            match parseValueF fuel (r2.drop 1) with
            | .error e => .error e
            | .ok (v, r4) =>
              let es2 := assocSet es key v
              let r5 := skipWhitespace r4
              if chHead r5 = ',' then
                parseObjectLoop fuel es2 (skipWhitespace (r5.drop 1))
              else if chHead r5 = '}' then
                parseObjectLoop fuel es2 (skipWhitespace r5)
              else .error .expectedCommaOrBrace
          else .error .expectedColon

/-- The `while` loop of Parser::parseArray, fused with the final
closing-bracket check, mirroring `parseObjectLoop`. -/
def parseArrayLoop : ℕ → List JsonValue → List Char →
    Except JsonError (List JsonValue × List Char)
  | 0, _, _ => .error .fuelExhausted
  | fuel + 1, vs, s =>
    match s with
    | [] => .error .expectedCloseBracket
    | c :: _ =>
      if c = ']' then .ok (vs, s.drop 1)
      else
        match parseValueF fuel s with
        | .error e => .error e
        | .ok (v, r1) =>
          let vs2 := vs ++ [v]
          let r2 := skipWhitespace r1
          if chHead r2 = ',' then
            parseArrayLoop fuel vs2 (skipWhitespace (r2.drop 1))
          else if chHead r2 = ']' then
            parseArrayLoop fuel vs2 (skipWhitespace r2)
          else .error .expectedCommaOrBracket

end

/-- Parser::parse: skip whitespace, parse one value, skip whitespace, and
reject any remaining characters. -/
def parse (json_ : String) : Except JsonError JsonValue :=
  let s := skipWhitespace json_.data
  match parseValueF (2 * json_.length + 2) s with
  | .error e => .error e
  | .ok (v, rest) =>
      if skipWhitespace rest = [] then .ok v else .error .trailingCharacters

/-- Pairwise distinctness of a key list. -/
def nodupKeys : List String → Bool
  | [] => true
  | k :: rest => !(rest.contains k) && nodupKeys rest

/-- Text free of embedded quote and backslash characters — the strings whose
unescaped serialization re-parses to the same text. -/
def noQB (s : String) : Bool :=
  s.data.all (fun c => !(c == '"') && !(c == '\\'))

/-- A number value whose formatted text reconverts exactly: the text is
nonempty, consists only of number characters (so `parseNumber` consumes all
of it), starts so that `parseValue` dispatches to `parseNumber`, and `stod`
maps it back to the same value. -/
def goodNumB (q : Decimal) : Bool :=
  !(fmtNum q).isEmpty && (fmtNum q).all isNumChar
    && (isDigitC (chHead (fmtNum q)) || chHead (fmtNum q) == '-'
        || chHead (fmtNum q) == '+')
    && (stod (fmtNum q) == some q)

mutual

/-- Values on which serialization is invertible: strings and keys carry no
quote or backslash, numbers reformat exactly, object keys are pairwise
distinct (as `JsonObject::add` guarantees for every constructed object). -/
def cleanV : JsonValue → Bool
  | .null => true
  | .boolean _ => true
  | .number q => goodNumB q
  | .str s => noQB s
  | .arr vs => cleanItems vs
  | .obj es => nodupKeys (es.map Prod.fst) && cleanEntries es

def cleanItems : List JsonValue → Bool
  | [] => true
  | v :: rest => cleanV v && cleanItems rest

def cleanEntries : List (String × JsonValue) → Bool
  | [] => true
  | (k, v) :: rest => noQB k && cleanV v && cleanEntries rest

end

mutual

/-- Values whose leaf texts carry no whitespace: strings and keys have no
whitespace characters and each number's formatted text consists of number
characters only.  Compact serialization of such a value contains no
whitespace at all. -/
def noWSV : JsonValue → Bool
  | .null => true
  | .boolean _ => true
  | .number q => (fmtNum q).all isNumChar
  | .str s => s.data.all (fun c => !(isCSpace c))
  | .arr vs => noWSItems vs
  | .obj es => noWSEntries es

def noWSItems : List JsonValue → Bool
  | [] => true
  | v :: rest => noWSV v && noWSItems rest

def noWSEntries : List (String × JsonValue) → Bool
  | [] => true
  | (k, v) :: rest =>
      k.data.all (fun c => !(isCSpace c)) && noWSV v && noWSEntries rest

end

mutual

/-- Fuel sufficient for `parseValueF` to parse the serialization of a value:
one dispatch step, plus for containers one loop step per element and one
final closing step. -/
def fneedV : JsonValue → ℕ
  | .arr vs => 1 + fneedItems vs
  | .obj es => 1 + fneedEntries es
  | _ => 1

def fneedItems : List JsonValue → ℕ
  | [] => 1
  | v :: rest => 1 + fneedV v + fneedItems rest

def fneedEntries : List (String × JsonValue) → ℕ
  | [] => 1
  | (_, v) :: rest => 1 + fneedV v + fneedEntries rest

end

/-- The newline-plus-indentation put before an element at depth `d` when
pretty-printing with unit width `w`; nothing when compact. -/
def linePre (d w : ℕ) : List Char :=
  if 0 < w then '\n' :: spaces (d * w) else []

/-- Input remaining at the head of the array loop while the suffix `u` of
elements is still to be parsed (the first element's text, then the rest of
the element loop output, then the closing newline-plus-indentation). -/
def arrTail : List JsonValue → ℕ → ℕ → List Char
  | [], _, _ => []
  | v :: t, l, w =>
      serializeV v (l + 1) w ++ serializeItems t false l w ++ linePre l w

/-- Input remaining at the head of the object loop while the suffix `u` of
entries is still to be parsed. -/
def objTail : List (String × JsonValue) → ℕ → ℕ → List Char
  | [], _, _ => []
  | (k, v) :: t, l, w =>
      '"' :: k.data ++ '"' :: ':' :: (if 0 < w then [' '] else [])
        ++ serializeV v (l + 1) w ++ serializeEntries t false l w
        ++ linePre l w

/-- Join rendered pieces with a separator. -/
def joinSep (sep : List Char) : List (List Char) → List Char
  | [] => []
  | [x] => x
  | x :: y :: rest => x ++ sep ++ joinSep sep (y :: rest)

mutual

/-- Serialization as §4.2 of the spec words it, used as the specification
side of the formatting claim: with `w = 0` elements are joined by bare
commas and the key separator is a bare colon; with `w > 0` every element
stands on its own line after exactly `d·w` spaces of indentation at nesting
depth `d`, the key separator is colon-space, and the closing bracket stands
on its own line at the enclosing depth. -/
def specSerializeV : JsonValue → ℕ → ℕ → List Char
  | .null, _, _ => ("null").data
  | .boolean b, _, _ => if b then ("true").data else ("false").data
  | .number q, _, _ => fmtNum q
  | .str s, _, _ => '"' :: s.data ++ ['"']
  | .arr vs, d, w =>
      '[' :: joinSep [','] (specItems vs d w) ++ linePre d w ++ [']']
  | .obj es, d, w =>
      '{' :: joinSep [','] (specEntries es d w) ++ linePre d w ++ ['}']

/-- Rendered array elements, each with its own-line prelude at depth
`d + 1`. -/
def specItems : List JsonValue → ℕ → ℕ → List (List Char)
  | [], _, _ => []
  | v :: rest, d, w =>
      (linePre (d + 1) w ++ specSerializeV v (d + 1) w) :: specItems rest d w

/-- Rendered object entries: own-line prelude, quoted key, colon (plus a
space when pretty), value. -/
def specEntries : List (String × JsonValue) → ℕ → ℕ → List (List Char)
  | [], _, _ => []
  | (k, v) :: rest, d, w =>
      (linePre (d + 1) w ++ '"' :: k.data ++ '"' :: ':'
        :: (if 0 < w then [' '] else []) ++ specSerializeV v (d + 1) w)
        :: specEntries rest d w

end

/-- First characters on which `parseValue` dispatches to `parseNumber`. -/
def numStartOK (c : Char) : Bool := isDigitC c || c == '-' || c == '+'

/-- Whether text begins with a convertible number: after at most one sign,
either a digit follows, or a decimal point followed by a digit.  This is
`strtod`'s acceptance condition on the character set `parseNumber`
consumes. -/
def hasNumStart (l : List Char) : Bool :=
  let l1 := if chHead l = '-' ∨ chHead l = '+' then l.drop 1 else l
  isDigitC (chHead l1) || (chHead l1 == '.' && isDigitC (chHead (l1.drop 1)))

/-- First characters a serialized value can start with: the dispatch set of
`parseValue`. -/
def startOK (c : Char) : Bool :=
  c == '{' || c == '[' || c == '"' || numStartOK c
    || c == 't' || c == 'f' || c == 'n'

/-- The number grammar of the spec: an optional sign, one or more digits,
then optionally a decimal point followed by one or more digits — matched
against the whole text. -/
def matchesNumberGrammar (l : List Char) : Bool :=
  let l1 : List Char :=
    if chHead l = '-' ∨ chHead l = '+' then l.drop 1 else l
  let ds := l1.takeWhile isDigitC
  let r2 := l1.drop ds.length
  !(ds.isEmpty) &&
    (r2.isEmpty ||
      (chHead r2 == '.' && !((r2.drop 1).isEmpty) && (r2.drop 1).all isDigitC))

/-- Array built by a sequence of `JsonArray::add` calls on the empty
array. -/
def buildArray (vs : List JsonValue) : JsonArray :=
  vs.foldl JsonArray.add ⟨[]⟩

/-- Mutating operations of the `JsonObject` interface (`get` is read-only
and leaves the state unchanged). -/
inductive ObjectOp where
  | addOp (key : String) (value : JsonValue)
  | getOp (key : String)

/-- Effect of one interface call on the object state. -/
def applyOp (o : JsonObject) : ObjectOp → JsonObject
  | .addOp key value => o.add key value
  | .getOp _ => o

/-- Object state after a call sequence starting from the empty object. -/
def runOps (ops : List ObjectOp) : JsonObject :=
  ops.foldl applyOp ⟨[], []⟩

/-- The entry list JsonObject::serialize walks: `keys_` in stored order, each
key with the value `values_.at(key)` holds for it (under the invariant
proved below every key of `keys_` is present in `values_`, so the `.at`
lookup never throws and the default is never read). -/
def JsonObject.entries (o : JsonObject) : List (String × JsonValue) :=
  o.keys_.map (fun k => (k, (assocGet o.values_ k).getD .null))

/-- JsonObject::serialize on the explicit two-field state. -/
def JsonObject.serialize (o : JsonObject) (indent_level indent_size : ℕ) :
    String :=
  ⟨'{' :: serializeEntries o.entries true indent_level indent_size
    ++ (if 0 < indent_size then
          '\n' :: spaces (indent_level * indent_size) else [])
    ++ ['}']⟩

theorem isNumChar_mem {c : Char} (h : isNumChar c = true) :
    c ∈ (['0', '1', '2', '3', '4', '5', '6', '7', '8', '9', '.', '-', '+'] :
      List Char) := by
  simp [isNumChar, isDigitC] at h
  simp only [List.mem_cons, List.not_mem_nil, or_false]
  tauto

theorem isNumChar_not_space {c : Char} (h : isNumChar c = true) :
    isCSpace c = false := by
  have hm := isNumChar_mem h
  fin_cases hm <;> decide

theorem numStartOK_mem {c : Char} (h : numStartOK c = true) :
    c ∈ (['0', '1', '2', '3', '4', '5', '6', '7', '8', '9', '-', '+'] :
      List Char) := by
  simp [numStartOK, isDigitC] at h
  simp only [List.mem_cons, List.not_mem_nil, or_false]
  tauto

theorem startOK_mem {c : Char} (h : startOK c = true) :
    c ∈ (['{', '[', '"', 't', 'f', 'n',
          '0', '1', '2', '3', '4', '5', '6', '7', '8', '9', '-', '+'] :
      List Char) := by
  simp [startOK, numStartOK, isDigitC] at h
  simp only [List.mem_cons, List.not_mem_nil, or_false]
  tauto

theorem startOK_props {c : Char} (h : startOK c = true) :
    isCSpace c = false ∧ c ≠ ']' ∧ c ≠ '}' ∧ c ≠ ',' ∧ c ≠ ':' := by
  have hm := startOK_mem h
  fin_cases hm <;> refine ⟨by decide, by decide, by decide, by decide, by decide⟩

theorem skipWhitespace_cons_of {c : Char} (l : List Char)
    (h : isCSpace c = false) : skipWhitespace (c :: l) = c :: l := by
  simp [skipWhitespace, h]

theorem skipWhitespace_idem (l : List Char) :
    skipWhitespace (skipWhitespace l) = skipWhitespace l := by
  induction l with
  | nil => rfl
  | cons c t ih =>
    by_cases h : isCSpace c = true
    · simp [skipWhitespace, h, ih]
    · simp [skipWhitespace, h]

theorem skipWhitespace_append (ws l : List Char)
    (h : ∀ c ∈ ws, isCSpace c = true) :
    skipWhitespace (ws ++ l) = skipWhitespace l := by
  induction ws with
  | nil => rfl
  | cons c t ih =>
    have hc := h c (by simp)
    simp only [List.cons_append, skipWhitespace, hc, if_true]
    exact ih (fun c hc2 => h c (by simp [hc2]))

theorem skipWhitespace_nil_of (l : List Char)
    (h : ∀ c ∈ l, isCSpace c = true) : skipWhitespace l = [] := by
  simpa using skipWhitespace_append l [] h

theorem linePre_allWS (d w : ℕ) : ∀ c ∈ linePre d w, isCSpace c = true := by
  intro c hc
  by_cases h : 0 < w
  · simp [linePre, h, spaces] at hc
    rcases hc with rfl | ⟨_, rfl⟩ <;> decide
  · simp [linePre, h] at hc

theorem skipWhitespace_linePre (d w : ℕ) (l : List Char) :
    skipWhitespace (linePre d w ++ l) = skipWhitespace l :=
  skipWhitespace_append _ _ (linePre_allWS d w)

theorem parseValueF_ws (f : ℕ) (ws s : List Char)
    (h : ∀ c ∈ ws, isCSpace c = true) :
    parseValueF f (ws ++ s) = parseValueF f s := by
  cases f with
  | zero => rfl
  | succ f => simp only [parseValueF, skipWhitespace_append ws s h]

/-- C9: an input that is empty or whitespace-only never produces a value:
`parseValue` runs out of input immediately. -/
theorem parse_whitespace_only (s : String)
    (h : ∀ c ∈ s.data, isCSpace c = true) :
    parse s = .error .unexpectedEndOfInput := by
  have h0 : skipWhitespace s.data = [] := skipWhitespace_nil_of _ h
  have hf : 2 * s.length + 2 = (2 * s.length + 1) + 1 := rfl
  simp only [parse, h0, hf, parseValueF, skipWhitespace]

/-- Witness for C9 at the two-space input. -/
theorem parse_whitespace_only_witness :
    parse ("  ") = .error .unexpectedEndOfInput :=
  parse_whitespace_only ("  ") (by decide)

/-- C3: distinct failure causes reach the caller as distinct, discriminable
reasons, one per cause, classified into the spec's seven-member taxonomy:
a type-mismatching accessor, an out-of-range array index, an exhausted
input, a missing expected token, a malformed literal, an inconvertible
number and trailing input are seven pairwise-distinct errors with seven
pairwise-distinct classifications. -/
theorem failure_reasons_discriminable :
    ((JsonValue.number ⟨1, 0⟩).asString = .error .notAString
      ∧ classify .notAString = .typeMismatch)
    ∧ ((JsonArray.mk []).get 0 = .error .indexOutOfRange
      ∧ classify .indexOutOfRange = .indexOutOfRange)
    ∧ (parse ("") = .error .unexpectedEndOfInput
      ∧ classify .unexpectedEndOfInput = .unexpectedEndOfInput)
    ∧ (parse ("\x7b\"a\"1\x7d") = .error .expectedColon
      ∧ classify .expectedColon = .expectedToken)
    ∧ (parse ("tru") = .error .badBoolLiteral
      ∧ classify .badBoolLiteral = .unrecognizedLiteral)
    ∧ (parse ("+") = .error .numericConversionFailure
      ∧ classify .numericConversionFailure = .numericConversionFailure)
    ∧ (parse ("  42  extra") = .error .trailingCharacters
      ∧ classify .trailingCharacters = .trailingCharacters)
    ∧ ([JsonError.notAString, .indexOutOfRange, .unexpectedEndOfInput,
        .expectedColon, .badBoolLiteral, .numericConversionFailure,
        .trailingCharacters] : List JsonError).Nodup
    ∧ ([ErrorKind.typeMismatch, .indexOutOfRange, .unexpectedEndOfInput,
        .expectedToken, .unrecognizedLiteral, .numericConversionFailure,
        .trailingCharacters] : List ErrorKind).Nodup :=
  ⟨⟨rfl, rfl⟩, ⟨rfl, rfl⟩, ⟨rfl, rfl⟩, ⟨rfl, rfl⟩, ⟨rfl, rfl⟩, ⟨rfl, rfl⟩,
   ⟨rfl, rfl⟩, by decide, by decide⟩

/-- C2 counterexample: a trailing comma inside an object is not rejected —
the parse succeeds and returns the object tree. -/
theorem object_trailing_comma_counterexample :
    parse ("\x7b\"a\":1,\x7d") = .ok (.obj [(("a" : String), .number ⟨1, 0⟩)]) :=
  rfl

/-- C2 amended: a trailing comma directly before the closing brace is
accepted (the separator check lets the loop exit on the brace), while a
non-string key, a missing colon, a missing separator and an unclosed object
each abort the parse with the corresponding expected-token error; the array
loop behaves the same way. -/
theorem object_parse_errors_amended :
    parse ("\x7b\"a\":1,\x7d") = .ok (.obj [(("a" : String), .number ⟨1, 0⟩)])
    ∧ parse ("\x7b1:2\x7d") = .error .expectedQuote
    ∧ parse ("\x7b\"a\"1\x7d") = .error .expectedColon
    ∧ parse ("\x7b\"a\":1 \"b\":2\x7d") = .error .expectedCommaOrBrace
    ∧ parse ("\x7b\"a\":1") = .error .expectedCommaOrBrace
    ∧ parse ("\x7b") = .error .expectedCloseBrace
    ∧ parse ("[1,2,]") = .ok (.arr [.number ⟨1, 0⟩, .number ⟨2, 0⟩])
    ∧ parse ("[1 2]") = .error .expectedCommaOrBracket
    ∧ classify .expectedQuote = .expectedToken
    ∧ classify .expectedColon = .expectedToken
    ∧ classify .expectedCommaOrBrace = .expectedToken
    ∧ classify .expectedCloseBrace = .expectedToken :=
  ⟨rfl, rfl, rfl, rfl, rfl, rfl, rfl, rfl, rfl, rfl, rfl, rfl⟩


theorem skipWhitespace_cons (c : Char) (l : List Char)
    (h : isCSpace c = false) : skipWhitespace (c :: l) = c :: l := by
  simp [skipWhitespace, h]

theorem parseStringLoop_no_quote :
    ∀ (n : ℕ) (s acc : List Char), s.length ≤ n → '"' ∉ s →
      parseStringLoop s acc = .error .unexpectedEndOfString := by
  intro n
  induction n with
  | zero =>
    intro s acc hl _
    rw [List.eq_nil_of_length_eq_zero (Nat.le_zero.mp hl)]
    rfl
  | succ n ih =>
    intro s acc hl hq
    rcases s with _ | ⟨c, t⟩
    · rfl
    · have hc : ¬(c = '"') := fun h => hq (by simp [h])
      by_cases hb : c = '\\'
      · subst hb
        rcases t with _ | ⟨e, t2⟩
        · rfl
        · rw [show parseStringLoop ('\\' :: e :: t2) acc
              = parseStringLoop t2 (acc ++ [escDecode e]) by
            rw [parseStringLoop.eq_def]; simp]
          refine ih t2 _ ?_ ?_
          · simp at hl; omega
          · intro h; exact hq (by simp [h])
      · rw [show parseStringLoop (c :: t) acc = parseStringLoop t (acc ++ [c]) by
            rw [parseStringLoop.eq_def]; simp only [if_neg hc, if_neg hb]]
        refine ih t _ ?_ ?_
        · simp at hl; omega
        · intro h; exact hq (by simp [h])

theorem parse_unterminated_string (l : List Char) (h : '"' ∉ l) :
    parse (⟨'"' :: l⟩) = .error .unexpectedEndOfString := by
  have h2 : parseStringLoop l [] = .error .unexpectedEndOfString :=
    parseStringLoop_no_quote l.length l [] le_rfl h
  have hws : skipWhitespace ('"' :: l) = '"' :: l :=
    skipWhitespace_cons '"' l (by decide)
  show (match parseValueF ((2 * l.length + 3) + 1) (skipWhitespace ('"' :: l)) with
    | .error e => (.error e : Except JsonError JsonValue)
    | .ok (v, rest) =>
        if skipWhitespace rest = [] then .ok v
        else .error .trailingCharacters)
    = .error .unexpectedEndOfString
  simp only [parseValueF, hws]
  simp [parseStringF, chHead, h2]


/-- C5: each of the recognized escapes decodes to its control character,
quote and backslash escapes decode to themselves through the fall-through
branch, any other escaped character passes through literally with the
backslash discarded, an unterminated string fails with the end-of-string
error (classified as unexpected end of input), and the canonical example
yields the three-character string a, newline, b. -/
theorem escape_decoding :
    (∀ c : Char, parse (⟨['"', '\\', c, '"']⟩) = .ok (.str (⟨[escDecode c]⟩)))
    ∧ parse ("\"\\n\"") = .ok (.str ("\n"))
    ∧ parse ("\"\\t\"") = .ok (.str ("\t"))
    ∧ parse ("\"\\r\"") = .ok (.str ("\r"))
    ∧ parse ("\"\\b\"") = .ok (.str ("\x08"))
    ∧ parse ("\"\\f\"") = .ok (.str ("\x0c"))
    ∧ parse ("\"\\\"\"") = .ok (.str ("\""))
    ∧ parse ("\"\\\\\"") = .ok (.str ("\\"))
    ∧ (∀ c : Char, c ∉ (['n', 't', 'r', 'b', 'f'] : List Char) →
        parse (⟨['"', '\\', c, '"']⟩) = .ok (.str (⟨[c]⟩)))
    ∧ (∀ l : List Char, '"' ∉ l →
        parse (⟨'"' :: l⟩) = .error .unexpectedEndOfString)
    ∧ classify .unexpectedEndOfString = .unexpectedEndOfInput
    ∧ parse ("\"a\\nb\"") = .ok (.str ("a\nb"))
    ∧ ("a\nb").length = 3 := by
  refine ⟨fun c => rfl, rfl, rfl, rfl, rfl, rfl, rfl, rfl, ?_,
    parse_unterminated_string, rfl, rfl, rfl⟩
  intro c hcn
  have h1 : parse (⟨['"', '\\', c, '"']⟩) = .ok (.str (⟨[escDecode c]⟩)) := rfl
  have h2 : escDecode c = c := by
    simp [List.mem_cons] at hcn
    obtain ⟨n1, n2, n3, n4, n5⟩ := hcn
    simp [escDecode, n1, n2, n3, n4, n5]
  rw [h1, h2]

/-- Witness for C5 at a concrete non-special escape and a concrete
unterminated string. -/
theorem escape_decoding_witness :
    parse (⟨'"' :: ['a', 'b']⟩) = .error .unexpectedEndOfString
    ∧ parse (⟨['"', '\\', 'q', '"']⟩) = .ok (.str (⟨['q']⟩)) :=
  ⟨escape_decoding.2.2.2.2.2.2.2.2.2.1 ['a', 'b'] (by decide),
   escape_decoding.2.2.2.2.2.2.2.2.1 'q' (by decide)⟩

theorem assocGet_assocSet (m : List (String × JsonValue)) (key k : String)
    (v : JsonValue) :
    assocGet (assocSet m key v) k = if key = k then some v else assocGet m k := by
  induction m with
  | nil => by_cases h : key = k <;> simp [assocSet, assocGet, h]
  | cons hd tl ih =>
    obtain ⟨k1, w⟩ := hd
    by_cases h1 : k1 = key
    · subst h1
      by_cases h2 : k1 = k <;> simp [assocSet, assocGet, h2]
    · simp only [assocSet, if_neg h1, assocGet]
      by_cases h2 : k1 = k
      · subst h2
        have hk : ¬(key = k1) := fun hh => h1 hh.symm
        simp [hk]
      · simp [h2, ih]

/-- C6: `JsonObject::add` stores the value retrievably; a fresh key is
appended at the end of the insertion-order list while an existing key
leaves the list unchanged; re-adding a key overwrites the value (the second
stored value is returned by `get`) and keeps the key list — hence the key's
position — unchanged. -/
theorem object_add_semantics (o : JsonObject) (key : String) (a b : JsonValue) :
    ((o.add key a).get key = some a)
    ∧ ((o.add key a).keys_ =
        if (o.get key).isSome then o.keys_ else o.keys_ ++ [key])
    ∧ (((o.add key a).add key b).get key = some b)
    ∧ (((o.add key a).add key b).keys_ = (o.add key a).keys_) := by
  have hget : ∀ (m : List (String × JsonValue)) (v : JsonValue),
      assocGet (assocSet m key v) key = some v := by
    intro m v; simp [assocGet_assocSet]
  refine ⟨hget _ a, ?_, hget _ b, ?_⟩
  · cases h : assocGet o.values_ key <;>
      simp [JsonObject.add, JsonObject.get, h]
  · simp [JsonObject.add, JsonObject.get, hget o.values_ a]

theorem buildArray_values : ∀ (vs acc : List JsonValue),
    (vs.foldl JsonArray.add ⟨acc⟩).values_ = acc ++ vs := by
  intro vs
  induction vs with
  | nil => intro acc; simp
  | cons v t ih =>
    intro acc
    have hstep : (JsonArray.mk acc).add v = ⟨acc ++ [v]⟩ := rfl
    simp only [List.foldl_cons, hstep, ih]
    simp

/-- C7: an array built by `add` calls stores exactly the added elements in
insertion order, and `get i` returns the element added at position `i` when
`i < length` and fails with the index-out-of-range error otherwise. -/
theorem array_get_semantics (vs : List JsonValue) (i : ℕ) :
    (buildArray vs).values_ = vs
    ∧ ((buildArray vs).get i =
        if i < vs.length then .ok (vs.getD i .null)
        else .error .indexOutOfRange) := by
  have hv : (buildArray vs).values_ = vs := by
    simpa using buildArray_values vs []
  exact ⟨hv, by simp [JsonArray.get, hv]⟩


theorem objInv_preserved (o : JsonObject) (key : String) (v : JsonValue)
    (h1 : o.keys_.Nodup)
    (h2 : ∀ k, k ∈ o.keys_ ↔ assocGet o.values_ k ≠ none) :
    (o.add key v).keys_.Nodup
    ∧ ∀ k, k ∈ (o.add key v).keys_ ↔
        assocGet (o.add key v).values_ k ≠ none := by
  have hval : (o.add key v).values_ = assocSet o.values_ key v := rfl
  cases h : assocGet o.values_ key with
  | none =>
    have hkey : key ∉ o.keys_ := fun hm => (h2 key).mp hm h
    have hk : (o.add key v).keys_ = o.keys_ ++ [key] := by
      simp [JsonObject.add, h]
    constructor
    · rw [hk]
      exact List.nodup_append.mpr ⟨h1, List.nodup_singleton key,
        fun a ha hb => by simp at hb; exact hkey (hb ▸ ha)⟩
    · intro k
      rw [hk, hval, assocGet_assocSet]
      by_cases hkk : key = k
      · subst hkk; simp
      · have : ¬(k = key) := fun hh => hkk hh.symm
        simp [hkk, this, h2 k]
  | some w =>
    have hk : (o.add key v).keys_ = o.keys_ := by simp [JsonObject.add, h]
    have hkey : key ∈ o.keys_ := (h2 key).mpr (by simp [h])
    refine ⟨hk ▸ h1, ?_⟩
    intro k
    rw [hk, hval, assocGet_assocSet]
    by_cases hkk : key = k
    · subst hkk; simp [hkey]
    · simp [hkk, h2 k]

theorem runOps_inv : ∀ (ops : List ObjectOp) (o : JsonObject),
    o.keys_.Nodup → (∀ k, k ∈ o.keys_ ↔ assocGet o.values_ k ≠ none) →
    (ops.foldl applyOp o).keys_.Nodup
    ∧ ∀ k, k ∈ (ops.foldl applyOp o).keys_ ↔
        assocGet (ops.foldl applyOp o).values_ k ≠ none := by
  intro ops
  induction ops with
  | nil => intro o h1 h2; exact ⟨h1, h2⟩
  | cons op t ih =>
    intro o h1 h2
    cases op with
    | addOp key v =>
      obtain ⟨g1, g2⟩ := objInv_preserved o key v h1 h2
      simpa [List.foldl_cons, applyOp] using ih (o.add key v) g1 g2
    | getOp key => simpa [List.foldl_cons, applyOp] using ih o h1 h2

theorem nodupKeys_iff (l : List String) : nodupKeys l = true ↔ l.Nodup := by
  induction l with
  | nil => simp [nodupKeys]
  | cons k t ih => simp [nodupKeys, ih, List.nodup_cons]

theorem assocGet_ne_none_of_mem :
    ∀ {m : List (String × JsonValue)} (kv : String × JsonValue), kv ∈ m →
      assocGet m kv.1 ≠ none := by
  intro m
  induction m with
  | nil => intro kv h; simp at h
  | cons hd tl ih =>
    intro kv h
    obtain ⟨k1, w⟩ := hd
    rcases List.mem_cons.mp h with rfl | h2
    · simp [assocGet]
    · by_cases hk : k1 = kv.1 <;> simp [assocGet, hk, ih kv h2]

/-- C10: after any sequence of interface calls on an initially empty object,
the recorded key list holds each key exactly once, a key is recorded exactly
when the map knows it (so the recorded-key set and the map's key set agree),
and the entry list that serialization walks pairs exactly the recorded keys,
in recorded order — hence serialization writes each stored key once, in
insertion order. -/
theorem object_state_invariant (ops : List ObjectOp) :
    nodupKeys (runOps ops).keys_ = true
    ∧ (runOps ops).keys_.all (fun k => ((runOps ops).get k).isSome) = true
    ∧ (runOps ops).values_.all
        (fun kv => (runOps ops).keys_.contains kv.1) = true
    ∧ (runOps ops).entries.map Prod.fst = (runOps ops).keys_ := by
  obtain ⟨h1, h2⟩ := runOps_inv ops ⟨[], []⟩ (List.nodup_nil)
    (fun k => by simp [assocGet])
  refine ⟨(nodupKeys_iff _).mpr h1, ?_, ?_, ?_⟩
  · rw [List.all_eq_true]
    intro k hk
    have := (h2 k).mp hk
    simp [JsonObject.get, Option.isSome_iff_ne_none]
    exact this
  · rw [List.all_eq_true]
    intro kv hkv
    have hne := assocGet_ne_none_of_mem kv hkv
    have hmem := (h2 kv.1).mpr hne
    simpa using hmem
  · simp [JsonObject.entries, List.map_map, Function.comp_def]


theorem takeWhile_digit_len_zero (t : List Char) :
    ((t.takeWhile isDigitC).length = 0) ↔ isDigitC (chHead t) = false := by
  rcases t with _ | ⟨d, r⟩
  · simpa [chHead] using by decide
  · rw [List.takeWhile_cons]
    by_cases hd : isDigitC d = true <;> simp [hd, chHead]

theorem stod_eq_none_core (sgn : Int) (t : List Char) :
    stodCore sgn t = none ↔
      (isDigitC (chHead t) ||
        (chHead t == '.' && isDigitC (chHead (t.drop 1)))) = false := by
  constructor
  · intro h
    simp only [stodCore] at h
    split at h
    · split at h
      · rename_i hdot hcond
        obtain ⟨hds, hfs⟩ := hcond
        rw [hds, List.drop_zero] at hdot hfs
        have h1 : isDigitC (chHead t) = false := by rw [hdot]; decide
        have h2 : isDigitC (chHead t.tail) = false := by
          simpa [List.drop_one] using (takeWhile_digit_len_zero _).mp hfs
        simp [h1, h2]
      · exact absurd h (by simp)
    · split at h
      · rename_i hdot hds
        rw [hds, List.drop_zero] at hdot
        have h1 : isDigitC (chHead t) = false :=
          (takeWhile_digit_len_zero _).mp hds
        have h2 : (chHead t == '.') = false := by
          simpa using hdot
        simp [h1, h2]
      · exact absurd h (by simp)
  · intro h
    simp only [Bool.or_eq_false_iff, Bool.and_eq_false_iff] at h
    obtain ⟨h1, h2⟩ := h
    have hds : (t.takeWhile isDigitC).length = 0 :=
      (takeWhile_digit_len_zero t).mpr h1
    simp only [stodCore]
    rw [hds, List.drop_zero]
    by_cases hdot : chHead t = '.'
    · rw [if_pos hdot]
      rcases h2 with h2a | h2b
      · exact absurd hdot (by simpa using h2a)
      · have hfs : ((t.drop 1).takeWhile isDigitC).length = 0 :=
          (takeWhile_digit_len_zero _).mpr h2b
        rw [if_pos ⟨rfl, hfs⟩]
    · rw [if_neg hdot, if_pos rfl]

theorem stod_eq_none_iff (l : List Char) :
    stod l = none ↔ hasNumStart l = false := by
  by_cases hm : chHead l = '-'
  · simpa [stod, hasNumStart, hm] using stod_eq_none_core (-1) (l.drop 1)
  · by_cases hp : chHead l = '+'
    · simpa [stod, hasNumStart, hm, hp] using stod_eq_none_core 1 (l.drop 1)
    · simpa [stod, hasNumStart, hm, hp] using stod_eq_none_core 1 l


/-- C4 amended: when `parseValue` dispatches on a sign or digit, the parse
reports a numeric conversion failure exactly when the maximal consumed run
of number characters lacks a valid numeric start (after at most one sign,
neither a digit nor a point followed by a digit); a run with a valid start
converts by longest-prefix semantics and never raises this error, even when
the whole run does not match the number grammar. -/
theorem numeric_conversion_failure_characterization (s : String)
    (h : numStartOK (chHead (skipWhitespace s.data)) = true) :
    (parse s = .error .numericConversionFailure
      ↔ hasNumStart ((skipWhitespace s.data).takeWhile isNumChar) = false) := by
  rcases ht : skipWhitespace s.data with _ | ⟨c, r⟩
  · rw [ht] at h; exact absurd h (by decide)
  · have hc : numStartOK c = true := by rw [ht] at h; simpa [chHead] using h
    have hmem := numStartOK_mem hc
    have hni : ¬(c = '{') ∧ ¬(c = '[') ∧ ¬(c = '"') ∧
        (isDigitC c = true ∨ c = '-' ∨ c = '+') := by
      fin_cases hmem <;> exact ⟨by decide, by decide, by decide, by decide⟩
    obtain ⟨hc1, hc2, hc3, hc4⟩ := hni
    have hidem : skipWhitespace (c :: r) = c :: r := by
      rw [← ht]; exact skipWhitespace_idem _
    show (match parseValueF ((2 * s.length + 1) + 1) (skipWhitespace s.data) with
      | .error e => (.error e : Except JsonError JsonValue)
      | .ok (v, rest) => if skipWhitespace rest = [] then .ok v
          else .error .trailingCharacters)
      = .error .numericConversionFailure
      ↔ hasNumStart ((c :: r).takeWhile isNumChar) = false
    rw [ht]
    simp only [parseValueF, hidem]
    rw [if_neg hc1, if_neg hc2, if_neg hc3, if_pos hc4]
    simp only [parseNumberF]
    cases hstod : stod ((c :: r).takeWhile isNumChar) with
    | none =>
      simp [hstod, (stod_eq_none_iff _).mp hstod]
    | some q =>
      have hns : ¬(hasNumStart ((c :: r).takeWhile isNumChar) = false) := by
        intro hf
        rw [(stod_eq_none_iff _).mpr hf] at hstod
        cases hstod
      simp only [hstod]
      constructor
      · intro hcontra
        split at hcontra <;> simp at hcontra
      · intro hcontra
        exact absurd hcontra hns

/-- C4 counterexample: the consumed run 1.2.3 consists entirely of number
characters (so it is consumed whole) and does not match the spec's number
grammar, yet the parse succeeds: `std::stod` converts the longest valid
numeric prefix 1.2 and the rest of the run is silently discarded. -/
theorem number_grammar_counterexample :
    matchesNumberGrammar (("1.2.3").data) = false
    ∧ ("1.2.3").data.takeWhile isNumChar = ("1.2.3").data
    ∧ parse ("1.2.3") = .ok (.number ⟨12, 1⟩) :=
  ⟨by decide, by decide, rfl⟩

/-- Witness for C4 at the lone-sign input, where the conversion does
fail. -/
theorem numeric_conversion_failure_witness :
    numStartOK (chHead (skipWhitespace (("+").data))) = true
    ∧ (parse ("+") = .error .numericConversionFailure
      ↔ hasNumStart ((skipWhitespace (("+").data)).takeWhile isNumChar)
          = false) :=
  ⟨by decide, numeric_conversion_failure_characterization ("+") (by decide)⟩

end Json

namespace Json

theorem isNumChar_props {c : Char} (h : isNumChar c = true) :
    ¬(c = '{') ∧ ¬(c = '[') ∧ ¬(c = '"') ∧ isCSpace c = false := by
  have hm := isNumChar_mem h
  fin_cases hm <;> exact ⟨by decide, by decide, by decide, by decide⟩

theorem parseStringLoop_content : ∀ (s rest acc : List Char),
    (∀ c ∈ s, ¬(c = '"') ∧ ¬(c = '\\')) →
    parseStringLoop (s ++ '"' :: rest) acc = .ok (acc ++ s, rest) := by
  intro s rest
  induction s with
  | nil =>
    intro acc h
    rw [parseStringLoop.eq_def]
    simp
  | cons c t ih =>
    intro acc h
    obtain ⟨hc, hb⟩ := h c (by simp)
    rw [List.cons_append]
    rw [show parseStringLoop (c :: (t ++ '"' :: rest)) acc
        = parseStringLoop (t ++ '"' :: rest) (acc ++ [c]) by
      rw [parseStringLoop.eq_def]
      simp only [if_neg hc, if_neg hb]]
    rw [ih (acc ++ [c]) (fun x hx => h x (by simp [hx]))]
    simp

theorem noQB_props {k : String} (h : noQB k = true) :
    ∀ c ∈ k.data, ¬(c = '"') ∧ ¬(c = '\\') := by
  intro c hc
  rw [noQB, List.all_eq_true] at h
  have hh := h c hc
  constructor <;> intro heq <;> subst heq <;> simp at hh

theorem parseStringF_content (s rest : List Char)
    (h : ∀ c ∈ s, ¬(c = '"') ∧ ¬(c = '\\')) :
    parseStringF ('"' :: (s ++ '"' :: rest)) = .ok (⟨s⟩, rest) := by
  simp [parseStringF, chHead, parseStringLoop_content s rest [] h]

theorem goodNumB_props {q : Decimal} (h : goodNumB q = true) :
    fmtNum q ≠ [] ∧ (∀ c ∈ fmtNum q, isNumChar c = true)
    ∧ (isDigitC (chHead (fmtNum q)) = true ∨ chHead (fmtNum q) = '-'
        ∨ chHead (fmtNum q) = '+')
    ∧ stod (fmtNum q) = some q := by
  rw [goodNumB] at h
  simp only [Bool.and_eq_true, beq_iff_eq, Bool.or_eq_true] at h
  obtain ⟨⟨⟨h1, h2⟩, h3⟩, h4⟩ := h
  refine ⟨by simpa using h1, by simpa [List.all_eq_true] using h2, ?_, h4⟩
  exact or_assoc.mp h3

theorem takeWhile_all_append (f rest : List Char)
    (h1 : ∀ c ∈ f, isNumChar c = true)
    (h2 : isNumChar (chHead rest) = false) :
    (f ++ rest).takeWhile isNumChar = f := by
  induction f with
  | nil =>
    rcases rest with _ | ⟨c, r⟩
    · rfl
    · simp only [chHead] at h2
      simp [List.takeWhile_cons, h2]
  | cons c t ih =>
    have hc := h1 c (by simp)
    simp [List.takeWhile_cons, hc, ih (fun x hx => h1 x (by simp [hx]))]

theorem parseNumberF_good (q : Decimal) (rest : List Char)
    (hall : ∀ c ∈ fmtNum q, isNumChar c = true)
    (hstod : stod (fmtNum q) = some q)
    (h2 : isNumChar (chHead rest) = false) :
    parseNumberF (fmtNum q ++ rest) = .ok (q, rest) := by
  simp only [parseNumberF, takeWhile_all_append _ _ hall h2, hstod,
    List.drop_left]

theorem parseBooleanF_true (rest : List Char) :
    parseBooleanF (("true").data ++ rest) = .ok (true, rest) := rfl

theorem parseBooleanF_false (rest : List Char) :
    parseBooleanF (("false").data ++ rest) = .ok (false, rest) := rfl

theorem parseNullF_null (rest : List Char) :
    parseNullF (("null").data ++ rest) = .ok rest := rfl

theorem serializeV_start (v : JsonValue) (l w : ℕ) (h : cleanV v = true) :
    serializeV v l w ≠ [] ∧ startOK (chHead (serializeV v l w)) = true := by
  cases v with
  | null =>
    exact ⟨by simp [serializeV],
      (by decide : startOK (chHead (("null").data)) = true)⟩
  | boolean b =>
    cases b
    · exact ⟨by simp [serializeV],
        (by decide : startOK (chHead (("false").data)) = true)⟩
    · exact ⟨by simp [serializeV],
        (by decide : startOK (chHead (("true").data)) = true)⟩
  | number q =>
    obtain ⟨hne, hall, hstart, _⟩ := goodNumB_props (by simpa [cleanV] using h)
    refine ⟨by simpa [serializeV] using hne, ?_⟩
    show startOK (chHead (fmtNum q)) = true
    rcases hstart with hd | hd | hd
    · simp [startOK, numStartOK, hd]
    · simp [startOK, numStartOK, hd]
    · simp [startOK, numStartOK, hd]
  | str s =>
    exact ⟨by simp [serializeV], (by decide : startOK '"' = true)⟩
  | arr vs =>
    exact ⟨by simp [serializeV], (by decide : startOK '[' = true)⟩
  | obj es =>
    exact ⟨by simp [serializeV], (by decide : startOK '{' = true)⟩

end Json

namespace Json

theorem serializeItems_cons (v : JsonValue) (t : List JsonValue)
    (first : Bool) (l w : ℕ) :
    serializeItems (v :: t) first l w
      = (if first then [] else [',']) ++ linePre (l + 1) w
        ++ serializeV v (l + 1) w ++ serializeItems t false l w := rfl

theorem serializeEntries_cons (k : String) (v : JsonValue)
    (t : List (String × JsonValue)) (first : Bool) (l w : ℕ) :
    serializeEntries ((k, v) :: t) first l w
      = (if first then [] else [',']) ++ linePre (l + 1) w
        ++ '"' :: k.data ++ '"' :: ':' :: (if 0 < w then [' '] else [])
        ++ serializeV v (l + 1) w ++ serializeEntries t false l w := rfl

theorem cleanItems_cons {v : JsonValue} {t : List JsonValue}
    (h : cleanItems (v :: t) = true) :
    cleanV v = true ∧ cleanItems t = true := by
  rw [show cleanItems (v :: t) = (cleanV v && cleanItems t) from rfl,
    Bool.and_eq_true] at h
  exact h

theorem cleanEntries_cons {k : String} {v : JsonValue}
    {t : List (String × JsonValue)}
    (h : cleanEntries ((k, v) :: t) = true) :
    noQB k = true ∧ cleanV v = true ∧ cleanEntries t = true := by
  rw [show cleanEntries ((k, v) :: t) = (noQB k && cleanV v && cleanEntries t)
      from rfl, Bool.and_eq_true, Bool.and_eq_true] at h
  exact ⟨h.1.1, h.1.2, h.2⟩

theorem arrLoop_input (vs : List JsonValue) (l w : ℕ) (rest : List Char)
    (hclean : cleanItems vs = true) :
    skipWhitespace (serializeItems vs true l w ++ (linePre l w ++ ']' :: rest))
      = arrTail vs l w ++ ']' :: rest := by
  cases vs with
  | nil =>
    show skipWhitespace (([] : List Char) ++ (linePre l w ++ ']' :: rest))
      = ([] : List Char) ++ ']' :: rest
    rw [List.nil_append, List.nil_append, skipWhitespace_linePre,
      skipWhitespace_cons ']' rest (by decide)]
  | cons v t =>
    have hcv : cleanV v = true := (cleanItems_cons hclean).1
    obtain ⟨hne, hst⟩ := serializeV_start v (l + 1) w hcv
    rcases hS : serializeV v (l + 1) w with _ | ⟨c, t'⟩
    · exact absurd hS hne
    · have hcs : isCSpace c = false := by
        rw [hS] at hst
        simp only [chHead] at hst
        exact (startOK_props hst).1
      show skipWhitespace (serializeItems (v :: t) true l w
          ++ (linePre l w ++ ']' :: rest))
        = (serializeV v (l + 1) w ++ serializeItems t false l w ++ linePre l w)
          ++ ']' :: rest
      rw [serializeItems_cons, if_pos rfl]
      simp only [List.append_assoc, List.nil_append]
      rw [skipWhitespace_linePre, hS, List.cons_append,
        skipWhitespace_cons c _ hcs, ← List.cons_append, ← hS]

theorem objLoop_input (es : List (String × JsonValue)) (l w : ℕ)
    (rest : List Char) :
    skipWhitespace (serializeEntries es true l w
        ++ (linePre l w ++ '}' :: rest))
      = objTail es l w ++ '}' :: rest := by
  cases es with
  | nil =>
    show skipWhitespace (([] : List Char) ++ (linePre l w ++ '}' :: rest))
      = ([] : List Char) ++ '}' :: rest
    rw [List.nil_append, List.nil_append, skipWhitespace_linePre,
      skipWhitespace_cons '}' rest (by decide)]
  | cons kv t =>
    obtain ⟨k, v⟩ := kv
    show skipWhitespace (serializeEntries ((k, v) :: t) true l w
        ++ (linePre l w ++ '}' :: rest))
      = ('"' :: k.data ++ '"' :: ':' :: (if 0 < w then [' '] else [])
          ++ serializeV v (l + 1) w ++ serializeEntries t false l w
          ++ linePre l w) ++ '}' :: rest
    rw [serializeEntries_cons, if_pos rfl]
    simp only [List.append_assoc, List.nil_append, List.cons_append]
    rw [skipWhitespace_linePre, skipWhitespace_cons '"' _ (by decide)]

end Json

namespace Json

theorem assocSet_fresh (m : List (String × JsonValue)) (k : String)
    (v : JsonValue) (h : k ∉ m.map Prod.fst) :
    assocSet m k v = m ++ [(k, v)] := by
  induction m with
  | nil => rfl
  | cons hd tl ih =>
    obtain ⟨k1, w⟩ := hd
    have hne : ¬(k1 = k) := by
      intro hh; exact h (by simp [hh])
    rw [show assocSet ((k1, w) :: tl) k v
        = if k1 = k then (k, v) :: tl else (k1, w) :: assocSet tl k v from rfl]
    rw [if_neg hne, ih (fun hh => h (by simp [hh]))]
    simp

theorem sepWS (w : ℕ) : ∀ c ∈ (if 0 < w then [' '] else ([] : List Char)),
    isCSpace c = true := by
  intro c hc
  by_cases hw : 0 < w
  · simp [hw] at hc; subst hc; decide
  · simp [hw] at hc

theorem string_eta (s : String) : String.mk s.data = s := rfl

theorem itemsTail_not_num (t : List JsonValue) (l w : ℕ) (rest : List Char) :
    isNumChar (chHead (serializeItems t false l w
      ++ (linePre l w ++ ']' :: rest))) = false := by
  cases t with
  | nil =>
    show isNumChar (chHead (([] : List Char)
      ++ (linePre l w ++ ']' :: rest))) = false
    rw [List.nil_append]
    by_cases hw : 0 < w
    · rw [show linePre l w = '\n' :: spaces (l * w) from by simp [linePre, hw]]
      exact (by decide : isNumChar '\n' = false)
    · rw [show linePre l w = [] from by simp [linePre, hw]]
      exact (by decide : isNumChar ']' = false)
  | cons v2 t2 =>
    exact (by decide : isNumChar ',' = false)

theorem entriesTail_not_num (t : List (String × JsonValue)) (l w : ℕ)
    (rest : List Char) :
    isNumChar (chHead (serializeEntries t false l w
      ++ (linePre l w ++ '}' :: rest))) = false := by
  cases t with
  | nil =>
    show isNumChar (chHead (([] : List Char)
      ++ (linePre l w ++ '}' :: rest))) = false
    rw [List.nil_append]
    by_cases hw : 0 < w
    · rw [show linePre l w = '\n' :: spaces (l * w) from by simp [linePre, hw]]
      exact (by decide : isNumChar '\n' = false)
    · rw [show linePre l w = [] from by simp [linePre, hw]]
      exact (by decide : isNumChar '}' = false)
  | cons kv t2 =>
    obtain ⟨k, v⟩ := kv
    exact (by decide : isNumChar ',' = false)

theorem parse_serialize_core : ∀ n : ℕ,
    (∀ v : JsonValue, sizeOf v ≤ n → ∀ (l w : ℕ) (rest : List Char)
        (extra : ℕ),
      cleanV v = true → isNumChar (chHead rest) = false →
      parseValueF (fneedV v + extra) (serializeV v l w ++ rest)
        = .ok (v, rest))
    ∧ (∀ u : List JsonValue, sizeOf u ≤ n →
        ∀ (acc : List JsonValue) (l w : ℕ) (rest : List Char) (extra : ℕ),
      cleanItems u = true →
      parseArrayLoop (fneedItems u + extra) acc (arrTail u l w ++ ']' :: rest)
        = .ok (acc ++ u, rest))
    ∧ (∀ u : List (String × JsonValue), sizeOf u ≤ n →
        ∀ (acc : List (String × JsonValue)) (l w : ℕ) (rest : List Char)
          (extra : ℕ),
      cleanEntries u = true →
      (acc.map Prod.fst ++ u.map Prod.fst).Nodup →
      parseObjectLoop (fneedEntries u + extra) acc
        (objTail u l w ++ '}' :: rest) = .ok (acc ++ u, rest)) := by
  intro n
  induction n using Nat.strong_induction_on with
  | _ n ih =>
  refine ⟨?_, ?_, ?_⟩
  · intro v hv l w rest extra hclean hrest
    cases v with
    | null =>
      rw [show fneedV JsonValue.null + extra = extra + 1 from
        Nat.add_comm 1 extra]
      rfl
    | boolean b =>
      cases b
      · rw [show fneedV (JsonValue.boolean false) + extra = extra + 1 from
          Nat.add_comm 1 extra]
        rfl
      · rw [show fneedV (JsonValue.boolean true) + extra = extra + 1 from
          Nat.add_comm 1 extra]
        rfl
    | number q =>
      obtain ⟨hne, hall, hstart, hstod⟩ :=
        goodNumB_props (show goodNumB q = true from hclean)
      rcases hS : fmtNum q with _ | ⟨c, t'⟩
      · exact absurd hS hne
      · have hcnum : isNumChar c = true := hall c (by rw [hS]; simp)
        obtain ⟨hn1, hn2, hn3, hn4⟩ := isNumChar_props hcnum
        have hdispatch : isDigitC c = true ∨ c = '-' ∨ c = '+' := by
          rw [hS] at hstart; simpa [chHead] using hstart
        rw [show fneedV (JsonValue.number q) + extra = extra + 1 from
          Nat.add_comm 1 extra]
        show parseValueF (extra + 1) (fmtNum q ++ rest)
          = .ok (.number q, rest)
        rw [hS, List.cons_append]
        simp only [parseValueF, skipWhitespace_cons c _ hn4]
        rw [if_neg hn1, if_neg hn2, if_neg hn3, if_pos hdispatch]
        rw [← List.cons_append, ← hS,
          parseNumberF_good q rest hall hstod hrest]
    | str s =>
      have hq := noQB_props (show noQB s = true from hclean)
      rw [show fneedV (JsonValue.str s) + extra = extra + 1 from
        Nat.add_comm 1 extra]
      show parseValueF (extra + 1) (('"' :: (s.data ++ ['"'])) ++ rest)
        = .ok (.str s, rest)
      rw [List.cons_append, List.append_assoc, List.singleton_append]
      simp only [parseValueF, skipWhitespace_cons '"' _ (by decide)]
      rw [parseStringF_content s.data rest hq]
      simp [string_eta]
    | arr vs =>
      have hlt : sizeOf vs < n := by
        have h1 : sizeOf vs < sizeOf (JsonValue.arr vs) := by simp
        omega
      have ihA := (ih (sizeOf vs) hlt).2.1 vs le_rfl
      have hfe : fneedV (JsonValue.arr vs) + extra
          = (fneedItems vs + extra) + 1 := by
        have h2 : fneedV (JsonValue.arr vs) = 1 + fneedItems vs := rfl
        omega
      rw [hfe]
      rw [show serializeV (JsonValue.arr vs) l w
          = '[' :: ((serializeItems vs true l w ++ linePre l w) ++ [']'])
        from rfl]
      rw [List.cons_append]
      simp only [List.append_assoc, List.singleton_append]
      simp only [parseValueF, skipWhitespace_cons '[' _ (by decide)]
      rw [if_pos trivial]
      simp only [List.drop_one, List.tail_cons]
      rw [arrLoop_input vs l w rest hclean, ihA [] l w rest extra hclean]
      rfl
    | obj es =>
      have hcl : nodupKeys (es.map Prod.fst) = true ∧ cleanEntries es = true := by
        rw [show cleanV (JsonValue.obj es)
            = (nodupKeys (es.map Prod.fst) && cleanEntries es) from rfl,
          Bool.and_eq_true] at hclean
        exact hclean
      have hnd : ((([] : List (String × JsonValue)).map Prod.fst)
          ++ es.map Prod.fst).Nodup := by
        simpa using (nodupKeys_iff _).mp hcl.1
      have hlt : sizeOf es < n := by
        have h1 : sizeOf es < sizeOf (JsonValue.obj es) := by simp
        omega
      have ihO := (ih (sizeOf es) hlt).2.2 es le_rfl
      have hfe : fneedV (JsonValue.obj es) + extra
          = (fneedEntries es + extra) + 1 := by
        have h2 : fneedV (JsonValue.obj es) = 1 + fneedEntries es := rfl
        omega
      rw [hfe]
      rw [show serializeV (JsonValue.obj es) l w
          = '{' :: ((serializeEntries es true l w ++ linePre l w) ++ ['}'])
        from rfl]
      rw [List.cons_append]
      simp only [List.append_assoc, List.singleton_append]
      simp only [parseValueF, skipWhitespace_cons '{' _ (by decide)]
      rw [if_pos trivial]
      simp only [List.drop_one, List.tail_cons]
      rw [objLoop_input es l w rest, ihO [] l w rest extra hcl.2 hnd]
      rfl
  · intro u hu acc l w rest extra hclean
    cases u with
    | nil =>
      rw [show fneedItems ([] : List JsonValue) + extra = extra + 1 from
        Nat.add_comm 1 extra]
      rw [show arrTail ([] : List JsonValue) l w = ([] : List Char) from rfl,
        List.nil_append, List.append_nil]
      rfl
    | cons v t =>
      obtain ⟨hcv, hct⟩ := cleanItems_cons hclean
      have hcons : sizeOf (v :: t) = 1 + sizeOf v + sizeOf t := by simp
      have hltv : sizeOf v < n := by omega
      have hltt : sizeOf t < n := by omega
      have ihV := (ih (sizeOf v) hltv).1 v le_rfl
      have ihA := (ih (sizeOf t) hltt).2.1 t le_rfl
      have hfe : fneedItems (v :: t) + extra
          = (fneedV v + (fneedItems t + extra)) + 1 := by
        have h2 : fneedItems (v :: t) = 1 + fneedV v + fneedItems t := rfl
        omega
      rw [hfe]
      rw [show arrTail (v :: t) l w
          = (serializeV v (l + 1) w ++ serializeItems t false l w)
            ++ linePre l w from rfl]
      simp only [List.append_assoc]
      obtain ⟨hne, hst⟩ := serializeV_start v (l + 1) w hcv
      rcases hS : serializeV v (l + 1) w with _ | ⟨c, t1⟩
      · exact absurd hS hne
      · have hpr := startOK_props (by rw [hS] at hst; simpa [chHead] using hst)
        rw [List.cons_append]
        simp only [parseArrayLoop]
        rw [if_neg hpr.2.1]
        rw [← List.cons_append, ← hS]
        rw [ihV (l + 1) w _ (fneedItems t + extra) hcv
          (itemsTail_not_num t l w rest)]
        cases t with
        | nil =>
          have hr2 : skipWhitespace (serializeItems ([] : List JsonValue)
              false l w ++ (linePre l w ++ ']' :: rest)) = ']' :: rest := by
            rw [show serializeItems ([] : List JsonValue) false l w
                = ([] : List Char) from rfl, List.nil_append,
              skipWhitespace_linePre]
            exact skipWhitespace_cons ']' rest (by decide)
          simp only [hr2]
          have hr3 : skipWhitespace (']' :: rest) = ']' :: rest :=
            skipWhitespace_cons ']' rest (by decide)
          simp only [chHead, hr3]
          rw [if_pos trivial]
          have hfe2 : fneedV v + (fneedItems ([] : List JsonValue) + extra)
              = (fneedV v + extra) + 1 := by
            have h2 : fneedItems ([] : List JsonValue) = 1 := rfl
            omega
          rw [hfe2]
          rfl
        | cons v2 t2 =>
          have hin := arrLoop_input (v2 :: t2) l w rest hct
          rw [serializeItems_cons, if_pos rfl] at hin
          simp only [List.nil_append, List.append_assoc] at hin
          rw [serializeItems_cons]
          rw [show (if false then ([] : List Char) else [',']) = [','] from
            rfl]
          simp only [List.append_assoc, List.singleton_append,
            List.cons_append, List.nil_append]
          rw [skipWhitespace_cons ',' _ (by decide)]
          simp only [chHead]
          rw [if_pos trivial]
          simp only [List.drop_one, List.tail_cons]
          rw [hin]
          have hfe3 : fneedV v + (fneedItems (v2 :: t2) + extra)
              = fneedItems (v2 :: t2) + (fneedV v + extra) := by omega
          rw [hfe3]
          rw [ihA (acc ++ [v]) l w rest (fneedV v + extra) hct]
          simp
  · intro u hu acc l w rest extra hclean hnd
    cases u with
    | nil =>
      rw [show fneedEntries ([] : List (String × JsonValue)) + extra
          = extra + 1 from Nat.add_comm 1 extra]
      rw [show objTail ([] : List (String × JsonValue)) l w
          = ([] : List Char) from rfl, List.nil_append, List.append_nil]
      rfl
    | cons kv t =>
      obtain ⟨k, v⟩ := kv
      obtain ⟨hk, hcv, hct⟩ := cleanEntries_cons hclean
      have hcons : sizeOf ((k, v) :: t) = 1 + (1 + sizeOf k + sizeOf v)
          + sizeOf t := by simp
      have hltv : sizeOf v < n := by omega
      have hltt : sizeOf t < n := by omega
      have ihV := (ih (sizeOf v) hltv).1 v le_rfl
      have ihO := (ih (sizeOf t) hltt).2.2 t le_rfl
      rw [List.map_cons] at hnd
      obtain ⟨hndA, hndB, hdisj⟩ := List.nodup_append.mp hnd
      have hfresh : k ∉ acc.map Prod.fst := fun hk2 => (hdisj hk2) (by simp)
      have hnd2 : ((acc ++ [(k, v)]).map Prod.fst
          ++ t.map Prod.fst).Nodup := by
        rw [List.map_append]
        rw [show ([(k, v)] : List (String × JsonValue)).map Prod.fst
            = [k] from rfl]
        rw [List.append_assoc, List.singleton_append]
        exact hnd
      have hfe : fneedEntries ((k, v) :: t) + extra
          = (fneedV v + (fneedEntries t + extra)) + 1 := by
        have h2 : fneedEntries ((k, v) :: t)
            = 1 + fneedV v + fneedEntries t := rfl
        omega
      rw [hfe]
      simp only [objTail, List.append_assoc, List.cons_append]
      simp only [parseObjectLoop]
      rw [if_neg (by decide : ¬('"' = '}'))]
      rw [parseStringF_content k.data _ (noQB_props hk)]
      simp only [string_eta]
      rw [skipWhitespace_cons ':' _ (by decide)]
      simp only [chHead]
      rw [if_pos trivial]
      simp only [List.drop_one, List.tail_cons]
      rw [parseValueF_ws _ _ _ (sepWS w)]
      rw [ihV (l + 1) w _ (fneedEntries t + extra) hcv
        (entriesTail_not_num t l w rest)]
      cases t with
      | nil =>
        have hr2 : skipWhitespace (serializeEntries
            ([] : List (String × JsonValue)) false l w
            ++ (linePre l w ++ '}' :: rest)) = '}' :: rest := by
          rw [show serializeEntries ([] : List (String × JsonValue)) false l w
              = ([] : List Char) from rfl, List.nil_append,
            skipWhitespace_linePre]
          exact skipWhitespace_cons '}' rest (by decide)
        simp only [hr2]
        rw [assocSet_fresh acc k v hfresh]
        have hr3 : skipWhitespace ('}' :: rest) = '}' :: rest :=
          skipWhitespace_cons '}' rest (by decide)
        simp only [chHead, hr3]
        rw [if_pos trivial]
        have hfe2 : fneedV v + (fneedEntries ([] : List (String × JsonValue))
            + extra) = (fneedV v + extra) + 1 := by
          have h2 : fneedEntries ([] : List (String × JsonValue)) = 1 := rfl
          omega
        rw [hfe2]
        rfl
      | cons kv2 t2 =>
        obtain ⟨k2, v2⟩ := kv2
        have hin := objLoop_input ((k2, v2) :: t2) l w rest
        rw [serializeEntries_cons, if_pos rfl] at hin
        simp only [List.nil_append, List.append_assoc, List.cons_append]
          at hin
        rw [serializeEntries_cons]
        rw [show (if false then ([] : List Char) else [',']) = [','] from
          rfl]
        simp only [List.append_assoc, List.singleton_append,
          List.cons_append, List.nil_append]
        rw [skipWhitespace_cons ',' _ (by decide)]
        simp only [chHead]
        rw [if_pos trivial]
        simp only [List.drop_one, List.tail_cons]
        rw [assocSet_fresh acc k v hfresh]
        rw [hin]
        have hfe3 : fneedV v + (fneedEntries ((k2, v2) :: t2) + extra)
            = fneedEntries ((k2, v2) :: t2) + (fneedV v + extra) := by omega
        rw [hfe3]
        rw [ihO (acc ++ [(k, v)]) l w rest (fneedV v + extra) hct hnd2]
        simp


/-- The fuel needed by the parser on serializer output is at most twice the
output length: each unit of fuel consumed corresponds to at least one
character of output (value text is nonempty; list passes consume at least
the element's text). -/
theorem fneed_le_length : ∀ n : ℕ,
    (∀ v : JsonValue, sizeOf v ≤ n → ∀ l w : ℕ, cleanV v = true →
      fneedV v + 1 ≤ 2 * (serializeV v l w).length) ∧
    (∀ u : List JsonValue, sizeOf u ≤ n → ∀ (first : Bool) (l w : ℕ),
      cleanItems u = true →
      fneedItems u ≤ 2 * (serializeItems u first l w).length + 2) ∧
    (∀ u : List (String × JsonValue), sizeOf u ≤ n →
      ∀ (first : Bool) (l w : ℕ), cleanEntries u = true →
      fneedEntries u ≤ 2 * (serializeEntries u first l w).length + 2) := by
  intro n
  induction n using Nat.strong_induction_on with
  | _ n ih =>
  refine ⟨?_, ?_, ?_⟩
  · intro v hv l w hc
    have hne := (serializeV_start v l w hc).1
    have hpos := List.length_pos.mpr hne
    cases v with
    | null =>
      have h1 : fneedV JsonValue.null = 1 := rfl
      omega
    | boolean b =>
      have h1 : fneedV (JsonValue.boolean b) = 1 := rfl
      omega
    | number q =>
      have h1 : fneedV (JsonValue.number q) = 1 := rfl
      omega
    | str s =>
      have h1 : fneedV (JsonValue.str s) = 1 := rfl
      omega
    | arr vs =>
      have hlt : sizeOf vs < n := by
        have h1 : sizeOf vs < sizeOf (JsonValue.arr vs) := by simp
        omega
      have ihA := (ih (sizeOf vs) hlt).2.1 vs le_rfl true l w
        (by exact hc)
      have h2 : fneedV (JsonValue.arr vs) = 1 + fneedItems vs := rfl
      have hL : 2 + (serializeItems vs true l w).length
          ≤ (serializeV (JsonValue.arr vs) l w).length := by
        simp only [serializeV, List.length_cons, List.length_append]
        omega
      omega
    | obj es =>
      have hc2 : cleanEntries es = true := by
        rw [show cleanV (JsonValue.obj es)
            = (nodupKeys (es.map Prod.fst) && cleanEntries es) from rfl,
          Bool.and_eq_true] at hc
        exact hc.2
      have hlt : sizeOf es < n := by
        have h1 : sizeOf es < sizeOf (JsonValue.obj es) := by simp
        omega
      have ihO := (ih (sizeOf es) hlt).2.2 es le_rfl true l w hc2
      have h2 : fneedV (JsonValue.obj es) = 1 + fneedEntries es := rfl
      have hL : 2 + (serializeEntries es true l w).length
          ≤ (serializeV (JsonValue.obj es) l w).length := by
        simp only [serializeV, List.length_cons, List.length_append]
        omega
      omega
  · intro u hu first l w hc
    cases u with
    | nil =>
      have h1 : fneedItems ([] : List JsonValue) = 1 := rfl
      omega
    | cons v t =>
      obtain ⟨hcv, hct⟩ := cleanItems_cons hc
      have hcons : sizeOf (v :: t) = 1 + sizeOf v + sizeOf t := by simp
      have hltv : sizeOf v < n := by omega
      have hltt : sizeOf t < n := by omega
      have ihV := (ih (sizeOf v) hltv).1 v le_rfl (l + 1) w hcv
      have ihI := (ih (sizeOf t) hltt).2.1 t le_rfl false l w hct
      have h2 : fneedItems (v :: t) = 1 + fneedV v + fneedItems t := rfl
      have hL : (serializeV v (l + 1) w).length
            + (serializeItems t false l w).length
          ≤ (serializeItems (v :: t) first l w).length := by
        simp only [serializeItems, List.length_append]
        omega
      omega
  · intro u hu first l w hc
    cases u with
    | nil =>
      have h1 : fneedEntries ([] : List (String × JsonValue)) = 1 := rfl
      omega
    | cons kv t =>
      obtain ⟨k, v⟩ := kv
      obtain ⟨hk, hcv, hct⟩ := cleanEntries_cons hc
      have hcons : sizeOf ((k, v) :: t) = 1 + (1 + sizeOf k + sizeOf v)
          + sizeOf t := by simp
      have hltv : sizeOf v < n := by omega
      have hltt : sizeOf t < n := by omega
      have ihV := (ih (sizeOf v) hltv).1 v le_rfl (l + 1) w hcv
      have ihE := (ih (sizeOf t) hltt).2.2 t le_rfl false l w hct
      have h2 : fneedEntries ((k, v) :: t)
          = 1 + fneedV v + fneedEntries t := rfl
      have hL : (serializeV v (l + 1) w).length
            + (serializeEntries t false l w).length
          ≤ (serializeEntries ((k, v) :: t) first l w).length := by
        simp only [serializeEntries, List.length_append, List.length_cons]
        omega
      omega

/-- C1 counterexample: a string value containing an embedded quote character
serializes without escaping, and the re-parse terminates the string literal
at that quote, leaving trailing characters: the round-trip fails. -/
theorem roundtrip_counterexample :
    JsonValue.serialize (JsonValue.str ⟨['"']⟩) 0 0 = ⟨['"', '"', '"']⟩
      ∧ parse (JsonValue.serialize (JsonValue.str ⟨['"']⟩) 0 0)
          = .error .trailingCharacters
      ∧ parse (JsonValue.serialize (JsonValue.str ⟨['\\']⟩) 0 0)
          = .error .unexpectedEndOfString := by
  refine ⟨rfl, rfl, rfl⟩

/-- C1 (amended): for every value whose strings (contents and keys) are free
of embedded quote and backslash characters, whose numbers reformat exactly,
and whose objects have pairwise-distinct keys, parsing the serialization at
any indent level and any unit width returns exactly the value. -/
theorem serialize_parse_roundtrip (v : JsonValue) (l w : ℕ)
    (h : cleanV v = true) :
    parse (JsonValue.serialize v l w) = .ok v := by
  obtain ⟨hne, hst⟩ := serializeV_start v l w h
  have hfb := (fneed_le_length (sizeOf v)).1 v le_rfl l w h
  have hPV : parseValueF (2 * (serializeV v l w).length + 2)
      (serializeV v l w) = .ok (v, []) := by
    have hmain := (parse_serialize_core (sizeOf v)).1 v le_rfl l w []
      (2 * (serializeV v l w).length + 2 - fneedV v) h (by decide)
    rw [List.append_nil] at hmain
    rw [show 2 * (serializeV v l w).length + 2
        = fneedV v + (2 * (serializeV v l w).length + 2 - fneedV v) from
      by omega]
    exact hmain
  rcases hS : serializeV v l w with _ | ⟨c, t1⟩
  · exact absurd hS hne
  · have hcs : isCSpace c = false := by
      have hp := startOK_props (by rw [hS] at hst; simpa [chHead] using hst)
      exact hp.1
    simp only [parse]
    rw [show (JsonValue.serialize v l w).data = serializeV v l w from rfl]
    rw [show (JsonValue.serialize v l w).length
        = (serializeV v l w).length from rfl]
    rw [hS, skipWhitespace_cons_of t1 hcs, ← hS]
    rw [hPV]
    rfl

/-- Pulling the separating comma out of a non-first element-loop pass. -/
theorem serializeItems_false (v : JsonValue) (t : List JsonValue)
    (l w : ℕ) :
    serializeItems (v :: t) false l w
      = ',' :: serializeItems (v :: t) true l w := rfl

/-- Pulling the separating comma out of a non-first key-loop pass. -/
theorem serializeEntries_false (k : String) (v : JsonValue)
    (t : List (String × JsonValue)) (l w : ℕ) :
    serializeEntries ((k, v) :: t) false l w
      = ',' :: serializeEntries ((k, v) :: t) true l w := rfl

/-- The emitted character stream equals the spec-side rendering: the nested
comma-before-each-later-element loops of the code produce exactly the
comma-joined pieces the spec describes. -/
theorem serialize_eq_spec : ∀ n : ℕ,
    (∀ v : JsonValue, sizeOf v ≤ n → ∀ d w : ℕ,
      serializeV v d w = specSerializeV v d w) ∧
    (∀ vs : List JsonValue, sizeOf vs ≤ n → ∀ d w : ℕ,
      serializeItems vs true d w = joinSep [','] (specItems vs d w)) ∧
    (∀ es : List (String × JsonValue), sizeOf es ≤ n → ∀ d w : ℕ,
      serializeEntries es true d w = joinSep [','] (specEntries es d w)) := by
  intro n
  induction n using Nat.strong_induction_on with
  | _ n ih =>
  refine ⟨?_, ?_, ?_⟩
  · intro v hv d w
    cases v with
    | null => rfl
    | boolean b => rfl
    | number q => rfl
    | str s => rfl
    | arr vs =>
      have hlt : sizeOf vs < n := by
        have h1 : sizeOf vs < sizeOf (JsonValue.arr vs) := by simp
        omega
      have ihA := (ih (sizeOf vs) hlt).2.1 vs le_rfl d w
      rw [show serializeV (JsonValue.arr vs) d w
          = '[' :: ((serializeItems vs true d w ++ linePre d w) ++ [']'])
        from rfl]
      rw [show specSerializeV (JsonValue.arr vs) d w
          = '[' :: ((joinSep [','] (specItems vs d w) ++ linePre d w)
            ++ [']']) from rfl]
      rw [ihA]
    | obj es =>
      have hlt : sizeOf es < n := by
        have h1 : sizeOf es < sizeOf (JsonValue.obj es) := by simp
        omega
      have ihO := (ih (sizeOf es) hlt).2.2 es le_rfl d w
      rw [show serializeV (JsonValue.obj es) d w
          = '{' :: ((serializeEntries es true d w ++ linePre d w) ++ ['}'])
        from rfl]
      rw [show specSerializeV (JsonValue.obj es) d w
          = '{' :: ((joinSep [','] (specEntries es d w) ++ linePre d w)
            ++ ['}']) from rfl]
      rw [ihO]
  · intro vs hvs d w
    cases vs with
    | nil => rfl
    | cons v t =>
      have hcons : sizeOf (v :: t) = 1 + sizeOf v + sizeOf t := by simp
      have hltv : sizeOf v < n := by omega
      have hltt : sizeOf t < n := by omega
      have ihV := (ih (sizeOf v) hltv).1 v le_rfl (d + 1) w
      have ihT := (ih (sizeOf t) hltt).2.1 t le_rfl d w
      cases t with
      | nil =>
        rw [show serializeItems [v] true d w
            = (linePre (d + 1) w ++ serializeV v (d + 1) w)
              ++ ([] : List Char) from rfl]
        rw [show joinSep [','] (specItems [v] d w)
            = linePre (d + 1) w ++ specSerializeV v (d + 1) w from rfl]
        rw [ihV]
        simp
      | cons v2 t2 =>
        rw [show serializeItems (v :: v2 :: t2) true d w
            = (linePre (d + 1) w ++ serializeV v (d + 1) w)
              ++ serializeItems (v2 :: t2) false d w from rfl]
        rw [serializeItems_false, ihT, ihV]
        rw [show joinSep [','] (specItems (v :: v2 :: t2) d w)
            = ((linePre (d + 1) w ++ specSerializeV v (d + 1) w) ++ [','])
              ++ joinSep [','] (specItems (v2 :: t2) d w) from rfl]
        simp
  · intro es hes d w
    cases es with
    | nil => rfl
    | cons kv t =>
      obtain ⟨k, v⟩ := kv
      have hcons : sizeOf ((k, v) :: t) = 1 + (1 + sizeOf k + sizeOf v)
          + sizeOf t := by simp
      have hltv : sizeOf v < n := by omega
      have hltt : sizeOf t < n := by omega
      have ihV := (ih (sizeOf v) hltv).1 v le_rfl (d + 1) w
      have ihT := (ih (sizeOf t) hltt).2.2 t le_rfl d w
      cases t with
      | nil =>
        rw [show serializeEntries [(k, v)] true d w
            = (((linePre (d + 1) w ++ ('"' :: k.data))
              ++ ('"' :: ':' :: (if 0 < w then [' '] else [])))
              ++ serializeV v (d + 1) w) ++ ([] : List Char) from rfl]
        rw [show joinSep [','] (specEntries [(k, v)] d w)
            = ((linePre (d + 1) w ++ ('"' :: k.data))
              ++ ('"' :: ':' :: (if 0 < w then [' '] else [])))
              ++ specSerializeV v (d + 1) w from rfl]
        rw [ihV]
        simp
      | cons kv2 t2 =>
        obtain ⟨k2, v2⟩ := kv2
        rw [show serializeEntries ((k, v) :: (k2, v2) :: t2) true d w
            = (((linePre (d + 1) w ++ ('"' :: k.data))
              ++ ('"' :: ':' :: (if 0 < w then [' '] else [])))
              ++ serializeV v (d + 1) w)
              ++ serializeEntries ((k2, v2) :: t2) false d w from rfl]
        rw [serializeEntries_false, ihT, ihV]
        rw [show joinSep [','] (specEntries ((k, v) :: (k2, v2) :: t2) d w)
            = ((((linePre (d + 1) w ++ ('"' :: k.data))
              ++ ('"' :: ':' :: (if 0 < w then [' '] else [])))
              ++ specSerializeV v (d + 1) w) ++ [','])
              ++ joinSep [','] (specEntries ((k2, v2) :: t2) d w) from rfl]
        simp

/-- Compact serialization of a value whose leaf texts carry no whitespace
contains no whitespace character anywhere. -/
theorem serialize_compact_noWS : ∀ n : ℕ,
    (∀ v : JsonValue, sizeOf v ≤ n → ∀ d : ℕ, noWSV v = true →
      (serializeV v d 0).all (fun c => !(isCSpace c)) = true) ∧
    (∀ vs : List JsonValue, sizeOf vs ≤ n → ∀ (first : Bool) (d : ℕ),
      noWSItems vs = true →
      (serializeItems vs first d 0).all (fun c => !(isCSpace c)) = true) ∧
    (∀ es : List (String × JsonValue), sizeOf es ≤ n →
      ∀ (first : Bool) (d : ℕ), noWSEntries es = true →
      (serializeEntries es first d 0).all (fun c => !(isCSpace c)) = true) := by
  intro n
  induction n using Nat.strong_induction_on with
  | _ n ih =>
  refine ⟨?_, ?_, ?_⟩
  · intro v hv d h
    cases v with
    | null =>
      exact (by decide : (("null").data).all (fun c => !(isCSpace c)) = true)
    | boolean b =>
      cases b
      · exact (by decide :
          (("false").data).all (fun c => !(isCSpace c)) = true)
      · exact (by decide :
          (("true").data).all (fun c => !(isCSpace c)) = true)
    | number q =>
      have h' : (fmtNum q).all isNumChar = true := h
      rw [show serializeV (JsonValue.number q) d 0 = fmtNum q from rfl]
      rw [List.all_eq_true] at h' ⊢
      intro c hc
      have h2 := (isNumChar_props (h' c hc)).2.2.2
      simp [h2]
    | str s =>
      have h' : s.data.all (fun c => !(isCSpace c)) = true := h
      rw [show serializeV (JsonValue.str s) d 0
          = '"' :: (s.data ++ ['"']) from rfl]
      simp only [List.all_cons, List.all_append, h']
      decide
    | arr vs =>
      have hlt : sizeOf vs < n := by
        have h1 : sizeOf vs < sizeOf (JsonValue.arr vs) := by simp
        omega
      have ihA := (ih (sizeOf vs) hlt).2.1 vs le_rfl true d (by exact h)
      rw [show serializeV (JsonValue.arr vs) d 0
          = '[' :: ((serializeItems vs true d 0 ++ ([] : List Char))
            ++ [']']) from rfl]
      simp only [List.all_cons, List.all_append, List.all_nil, ihA]
      decide
    | obj es =>
      have hlt : sizeOf es < n := by
        have h1 : sizeOf es < sizeOf (JsonValue.obj es) := by simp
        omega
      have ihO := (ih (sizeOf es) hlt).2.2 es le_rfl true d (by exact h)
      rw [show serializeV (JsonValue.obj es) d 0
          = '{' :: ((serializeEntries es true d 0 ++ ([] : List Char))
            ++ ['}']) from rfl]
      simp only [List.all_cons, List.all_append, List.all_nil, ihO]
      decide
  · intro vs hvs first d h
    cases vs with
    | nil => cases first <;> rfl
    | cons v t =>
      have h' : noWSV v = true ∧ noWSItems t = true := by
        rw [show noWSItems (v :: t) = (noWSV v && noWSItems t) from rfl,
          Bool.and_eq_true] at h
        exact h
      have hcons : sizeOf (v :: t) = 1 + sizeOf v + sizeOf t := by simp
      have hltv : sizeOf v < n := by omega
      have hltt : sizeOf t < n := by omega
      have ihV := (ih (sizeOf v) hltv).1 v le_rfl (d + 1) h'.1
      have ihT := (ih (sizeOf t) hltt).2.1 t le_rfl false d h'.2
      rw [show serializeItems (v :: t) first d 0
          = (((if first then ([] : List Char) else [','])
            ++ ([] : List Char)) ++ serializeV v (d + 1) 0)
            ++ serializeItems t false d 0 from rfl]
      simp only [List.all_cons, List.all_append, List.all_nil, ihV, ihT]
      cases first <;> decide
  · intro es hes first d h
    cases es with
    | nil => cases first <;> rfl
    | cons kv t =>
      obtain ⟨k, v⟩ := kv
      have h' : (k.data.all (fun c => !(isCSpace c)) && noWSV v) = true
          ∧ noWSEntries t = true := by
        rw [show noWSEntries ((k, v) :: t)
            = (k.data.all (fun c => !(isCSpace c)) && noWSV v
              && noWSEntries t) from rfl, Bool.and_eq_true] at h
        exact h
      obtain ⟨hkv, ht⟩ := h'
      rw [Bool.and_eq_true] at hkv
      have hcons : sizeOf ((k, v) :: t) = 1 + (1 + sizeOf k + sizeOf v)
          + sizeOf t := by simp
      have hltv : sizeOf v < n := by omega
      have hltt : sizeOf t < n := by omega
      have ihV := (ih (sizeOf v) hltv).1 v le_rfl (d + 1) hkv.2
      have ihT := (ih (sizeOf t) hltt).2.2 t le_rfl false d ht
      rw [show serializeEntries ((k, v) :: t) first d 0
          = ((((if first then ([] : List Char) else [','])
            ++ ([] : List Char)) ++ ('"' :: k.data))
            ++ ('"' :: ':' :: ([] : List Char)))
            ++ serializeV v (d + 1) 0
            ++ serializeEntries t false d 0 from rfl]
      simp only [List.all_cons, List.all_append, List.all_nil, ihV, ihT,
        hkv.1]
      cases first <;> decide

/-- C8: with unit width 0 serialization is compact — beyond the quoting of
strings and keys and the bare ':' key separator it inserts no whitespace (no
whitespace appears at all once the leaf texts carry none) — and for any unit
width the output matches the spec-side rendering, in which for `w > 0` every
element stands on its own line after exactly `d·w` spaces of indentation at
its nesting depth `d` and the key separator is colon-space. -/
theorem serialization_formatting :
    (∀ (v : JsonValue) (d w : ℕ), serializeV v d w = specSerializeV v d w)
    ∧ ∀ (v : JsonValue) (d : ℕ), noWSV v = true →
        (serializeV v d 0).all (fun c => !(isCSpace c)) = true :=
  ⟨fun v d w => (serialize_eq_spec (sizeOf v)).1 v le_rfl d w,
   fun v d h => (serialize_compact_noWS (sizeOf v)).1 v le_rfl d h⟩

/-- Closed instance of the formatting theorem: a pretty-printed array and a
compact whitespace-free object. -/
theorem serialization_formatting_witness :
    serializeV (JsonValue.arr [JsonValue.null]) 0 2
      = specSerializeV (JsonValue.arr [JsonValue.null]) 0 2
    ∧ noWSV (JsonValue.obj [(⟨['a']⟩, JsonValue.boolean true)]) = true
    ∧ (serializeV (JsonValue.obj [(⟨['a']⟩, JsonValue.boolean true)])
        0 0).all (fun c => !(isCSpace c)) = true :=
  ⟨serialization_formatting.1 (JsonValue.arr [JsonValue.null]) 0 2,
   by decide,
   serialization_formatting.2
     (JsonValue.obj [(⟨['a']⟩, JsonValue.boolean true)]) 0 (by decide)⟩

/-- Closed instance of the round-trip theorem: an object holding an array of
all four leaf kinds, pretty-printed with unit width 2, parses back to
itself. -/
theorem serialize_parse_roundtrip_witness :
    cleanV (JsonValue.obj [(⟨['a']⟩, JsonValue.arr
      [JsonValue.number ⟨1, 0⟩, JsonValue.str ⟨['x']⟩,
       JsonValue.boolean true, JsonValue.null])]) = true
    ∧ parse (JsonValue.serialize (JsonValue.obj [(⟨['a']⟩, JsonValue.arr
        [JsonValue.number ⟨1, 0⟩, JsonValue.str ⟨['x']⟩,
         JsonValue.boolean true, JsonValue.null])]) 0 2)
      = .ok (JsonValue.obj [(⟨['a']⟩, JsonValue.arr
        [JsonValue.number ⟨1, 0⟩, JsonValue.str ⟨['x']⟩,
         JsonValue.boolean true, JsonValue.null])]) :=
  ⟨by decide, serialize_parse_roundtrip _ 0 2 (by decide)⟩

end Json
